import Mathlib

/-!
A shallow embedding of the ckpool connector (`src/connector.c`) and proofs of
the specification's claims about it.

Machine integers (`int64_t`) are modelled as `Int` with explicit two's
complement wrapping where overflow matters; byte buffers are modelled as
`List Char`; the jansson JSON library (out of scope per the spec) is modelled
as an abstract object type with parse/dump parameters.
-/

namespace Connector

/-- Constant `MAX_MSGSIZE` from connector.c line 24. -/
def MAX_MSGSIZE : Nat := 1024

/-- Constant `PAGESIZE` from libckpool.h: size of a client's receive buffer. -/
def PAGESIZE : Nat := 4096

/-! ## 64-bit integer operations

`int64_t` values are modelled as mathematical integers; operations that can
overflow wrap to the two's complement 64-bit range. -/

/-- Wrap an integer into the two's complement `int64_t` range. -/
def wrap64 (x : Int) : Int := (x + 2 ^ 63) % 2 ^ 64 - 2 ^ 63

/-- C `x << 32` on `int64_t`: multiplication by `2^32`, wrapping mod `2^64`. -/
def i64shl32 (x : Int) : Int := wrap64 (x * 2 ^ 32)

/-- C `x | y` on `int64_t`: two's complement bitwise or (in-range operands
give an in-range result, so no wrap is needed). -/
def i64or (x y : Int) : Int := Int.lor x y

/-- C `x & y` on `int64_t`: two's complement bitwise and. -/
def i64and (x y : Int) : Int := Int.land x y

/-- C `x >> 32` on `int64_t`: arithmetic shift right. -/
def i64shr32 (x : Int) : Int := Int.shiftRight x 32

/-- The ingress passthrough id encoding, parse_client_msg
(connector.c:408): `passthrough_id = (client->id << 32) | passthrough_id`. -/
def ingress_encode (clientId embeddedId : Int) : Int :=
  i64or (i64shl32 clientId) embeddedId

/-- The egress id split performed by send_client (connector.c:657-661):
when `id > 0xffffffff`, `client_id = id & 0xffffffff` and
`pass_id = id >> 32`.  Returns `(pass_id, client_id)`. -/
def send_client_split (id : Int) : Option (Int × Int) :=
  if 0xffffffff < id then some (i64shr32 id, i64and id 0xffffffff) else none

/-- Spec wording: the high 32 bits of a (non-negative) id. -/
def high32 (id : Int) : Int := id / 2 ^ 32

/-- Spec wording: the low 32 bits of a (non-negative) id. -/
def low32 (id : Int) : Int := id % 2 ^ 32

/-! ### Arithmetic lemmas for the id encoding -/

theorem wrap64_eq_self {x : Int} (h1 : -(2 ^ 63) ≤ x) (h2 : x < 2 ^ 63) :
    wrap64 x = x := by
  unfold wrap64
  omega

theorem int_lor_ofNat (a b : Nat) :
    Int.lor (Int.ofNat a) (Int.ofNat b) = Int.ofNat (a ||| b) := rfl

theorem int_land_ofNat (a b : Nat) :
    Int.land (Int.ofNat a) (Int.ofNat b) = Int.ofNat (a &&& b) := rfl

theorem int_shiftRight_ofNat (a n : Nat) :
    Int.shiftRight (Int.ofNat a) n = Int.ofNat (a >>> n) := rfl

theorem nat_mul_pow_or_low {p s : Nat} (h : s < 2 ^ 32) :
    (p * 2 ^ 32) ||| s = p * 2 ^ 32 + s := by
  rw [Nat.mul_comm]
  exact (Nat.mul_add_lt_is_or h p).symm

theorem nat_and_mask32 (x : Nat) : x &&& 0xffffffff = x % 2 ^ 32 := by
  have h : (0xffffffff : Nat) = 2 ^ 32 - 1 := by norm_num
  rw [h]
  apply Nat.eq_of_testBit_eq
  intro i
  simp only [Nat.testBit_and, Nat.testBit_two_pow_sub_one, Nat.testBit_mod_two_pow]
  cases Nat.decLt i 32 with
  | isTrue hlt => simp [hlt]
  | isFalse hge => simp [hge]

theorem nat_shiftRight32_eq_div (x : Nat) : x >>> 32 = x / 2 ^ 32 := by
  rw [Nat.shiftRight_eq_div_pow]

theorem i64shr32_natCast (n : Nat) : i64shr32 (n : Int) = ((n / 2 ^ 32 : Nat) : Int) := by
  unfold i64shr32
  rw [show ((n : Int) = Int.ofNat n) from rfl, int_shiftRight_ofNat,
    nat_shiftRight32_eq_div]
  rfl

theorem i64and_mask_natCast (n : Nat) :
    i64and (n : Int) 0xffffffff = ((n % 2 ^ 32 : Nat) : Int) := by
  unfold i64and
  rw [show ((n : Int) = Int.ofNat n) from rfl,
    show ((0xffffffff : Int) = Int.ofNat 0xffffffff) from rfl,
    int_land_ofNat, nat_and_mask32]
  rfl

theorem i64shl32_natCast {p : Nat} (hp : p < 2 ^ 31) :
    i64shl32 (p : Int) = ((p * 2 ^ 32 : Nat) : Int) := by
  unfold i64shl32
  have hle : ((p : Int) * 2 ^ 32) = ((p * 2 ^ 32 : Nat) : Int) := by push_cast; ring
  rw [hle]
  apply wrap64_eq_self
  · omega
  · have h : (p * 2 ^ 32 : Nat) < 2 ^ 63 := by
      calc p * 2 ^ 32 ≤ (2 ^ 31 - 1) * 2 ^ 32 := Nat.mul_le_mul_right _ (by omega)
        _ < 2 ^ 63 := by norm_num
    exact_mod_cast h

theorem ingress_encode_natCast {p s : Nat} (hp : p < 2 ^ 31) (hs : s < 2 ^ 32) :
    ingress_encode (p : Int) (s : Int) = ((p * 2 ^ 32 + s : Nat) : Int) := by
  unfold ingress_encode i64or
  rw [i64shl32_natCast hp,
    show (((p * 2 ^ 32 : Nat) : Int) = Int.ofNat (p * 2 ^ 32)) from rfl,
    show ((s : Int) = Int.ofNat s) from rfl, int_lor_ofNat,
    nat_mul_pow_or_low hs]
  rfl

theorem send_client_split_natCast {n : Nat} (h : 0xffffffff < n) :
    send_client_split (n : Int) =
      some (((n / 2 ^ 32 : Nat) : Int), ((n % 2 ^ 32 : Nat) : Int)) := by
  unfold send_client_split
  rw [if_pos (by exact_mod_cast h), i64shr32_natCast, i64and_mask_natCast]

theorem i64shl32_overflow_neg {p : Int} (h1 : 2 ^ 31 ≤ p) (h2 : p < 2 ^ 32) :
    i64shl32 p < 0 := by
  unfold i64shl32 wrap64
  omega

theorem i64or_neg_nonneg {a b : Int} (ha : a < 0) (hb : 0 ≤ b) : i64or a b < 0 := by
  obtain ⟨m, rfl⟩ := Int.eq_negSucc_of_lt_zero ha
  obtain ⟨n, rfl⟩ := Int.eq_ofNat_of_zero_le hb
  rw [show i64or (Int.negSucc m) ((n : Nat) : Int) = Int.negSucc (Nat.ldiff m n) from rfl]
  exact Int.negSucc_lt_zero _

theorem send_client_split_not_high {id : Int} (h : id ≤ 0xffffffff) :
    send_client_split id = none := by
  unfold send_client_split
  rw [if_neg (by omega)]

/-- Counterexample to C1 as stated: the claim bounds only `sub < 2^32`, but
for a parent of `2^31` the encode `(p << 32) | s` (connector.c:408) wraps
the `int64_t` negative, so `send_client`'s `id > 0xffffffff` test
(connector.c:657) fails and the id is never split back into (parent, sub):
encode followed by decode is not the identity at `(2^31, 7)`. -/
theorem ingress_encode_high_parent_no_split :
    (7 : Int) < 2 ^ 32 ∧ (0 : Int) ≤ 7 ∧
    ingress_encode (2 ^ 31) 7 < 0 ∧
    send_client_split (ingress_encode (2 ^ 31) 7) = none ∧
    send_client_split (ingress_encode (2 ^ 31) 7) ≠ some (2 ^ 31, 7) := by
  have hneg : ingress_encode (2 ^ 31 : Int) 7 < 0 :=
    i64or_neg_nonneg (i64shl32_overflow_neg (by norm_num) (by norm_num)) (by norm_num)
  have hnone : send_client_split (ingress_encode (2 ^ 31) 7) = none :=
    send_client_split_not_high (by omega)
  refine ⟨by norm_num, by norm_num, hneg, hnone, ?_⟩
  rw [hnone]
  simp

/-- C1 (amended): for every parent client id p with `1 ≤ p < 2^31` and
embedded sub-id s with `0 ≤ s < 2^32`, the ingress passthrough encoding
computes `client_id = (p << 32) | s` and encode followed by decode is the
identity on such pairs; for every non-negative id whose high 32 bits are
non-zero, `send_client` splits it into `pass_id = id >> 32` and
`client_id = id & 0xffffffff` (the pair (high 32 bits, low 32 bits)), and
the egress field rewrite `id & 0xffffffff` yields the low 32 bits; for
parents in `[2^31, 2^32)` the 64-bit shift overflows, the encoded id is
negative, and `send_client` does not split it. -/
theorem id_encoding_roundtrip :
    (∀ id : Int, 0 ≤ id → id < 2 ^ 63 →
      ((0xffffffff < id ↔ high32 id ≠ 0) ∧
       i64and id 0xffffffff = low32 id ∧
       (0xffffffff < id → send_client_split id = some (high32 id, low32 id)))) ∧
    (∀ p s : Int, 1 ≤ p → p < 2 ^ 31 → 0 ≤ s → s < 2 ^ 32 →
      ingress_encode p s = p * 2 ^ 32 + s ∧
      send_client_split (ingress_encode p s) = some (p, s)) ∧
    (∀ p s : Int, 2 ^ 31 ≤ p → p < 2 ^ 32 → 0 ≤ s →
      ingress_encode p s < 0 ∧
      send_client_split (ingress_encode p s) = none) := by
  refine ⟨?_, ?_, ?_⟩
  · intro id h0 hlt
    obtain ⟨n, rfl⟩ := Int.eq_ofNat_of_zero_le h0
    have hdiv : high32 (n : Int) = ((n / 2 ^ 32 : Nat) : Int) := by
      unfold high32
      omega
    have hmod : low32 (n : Int) = ((n % 2 ^ 32 : Nat) : Int) := by
      unfold low32
      omega
    refine ⟨?_, ?_, ?_⟩
    · rw [hdiv]
      omega
    · rw [hmod, i64and_mask_natCast]
    · intro h
      have hn : 0xffffffff < n := by exact_mod_cast h
      rw [send_client_split_natCast hn, hdiv, hmod]
  · intro p s hp1 hp2 hs1 hs2
    obtain ⟨pn, rfl⟩ := Int.eq_ofNat_of_zero_le (by omega : (0 : Int) ≤ p)
    obtain ⟨sn, rfl⟩ := Int.eq_ofNat_of_zero_le hs1
    have hpn2 : pn < 2 ^ 31 := by exact_mod_cast hp2
    have hsn : sn < 2 ^ 32 := by exact_mod_cast hs2
    have henc := ingress_encode_natCast hpn2 hsn
    constructor
    · rw [henc]
      push_cast
      ring
    · rw [henc, send_client_split_natCast (by
        have h : 2 ^ 32 ≤ pn * 2 ^ 32 := Nat.le_mul_of_pos_left _ (by omega)
        omega)]
      have h1 : (pn * 2 ^ 32 + sn) / 2 ^ 32 = pn := by omega
      have h2 : (pn * 2 ^ 32 + sn) % 2 ^ 32 = sn := by omega
      rw [h1, h2]
  · intro p s hp1 hp2 hs
    have hneg : ingress_encode p s < 0 :=
      i64or_neg_nonneg (i64shl32_overflow_neg hp1 hp2) hs
    exact ⟨hneg, send_client_split_not_high (by omega)⟩

/-- Witness for C1 (amended) at parent 10, sub 7, id `(10 << 32) | 7`, and
at the overflowing parent 3000000000. -/
theorem id_encoding_roundtrip_witness :
    ((0 : Int) ≤ 42949672967 ∧ (42949672967 : Int) < 2 ^ 63 ∧
      (1 : Int) ≤ 10 ∧ (10 : Int) < 2 ^ 31 ∧ (0 : Int) ≤ 7 ∧ (7 : Int) < 2 ^ 32 ∧
      (2 ^ 31 : Int) ≤ 3000000000 ∧ (3000000000 : Int) < 2 ^ 32 ∧ (0 : Int) ≤ 5) ∧
    (i64and 42949672967 0xffffffff = low32 42949672967 ∧
      send_client_split (ingress_encode 10 7) = some (10, 7) ∧
      send_client_split (ingress_encode 3000000000 5) = none) :=
  ⟨⟨by norm_num, by norm_num, by norm_num, by norm_num, by norm_num, by norm_num,
      by norm_num, by norm_num, by norm_num⟩,
    ⟨(id_encoding_roundtrip.1 42949672967 (by norm_num) (by norm_num)).2.1,
     (id_encoding_roundtrip.2.1 10 7 (by norm_num) (by norm_num) (by norm_num)
       (by norm_num)).2,
     (id_encoding_roundtrip.2.2 3000000000 5 (by norm_num) (by norm_num)
       (by norm_num)).2⟩⟩

/-! ## JSON object model

The jansson library is out of scope (the spec models it as a value with
parse/emit/get/set primitives).  A JSON object is a list of key/value pairs
with the jansson object semantics: `set` replaces an existing key in place or
appends, `del` removes the key, `get` finds the key. -/

/-- A JSON value, as far as the connector manipulates one. -/
inductive JVal where
  | jint (i : Int)
  | jstr (s : String)
  | jbool (b : Bool)
  | jnull
deriving DecidableEq, Inhabited

/-- A JSON object: association list of fields. -/
abbrev JObj := List (String × JVal)

/-- jansson `json_object_get`. -/
def jobj_get (o : JObj) (k : String) : Option JVal :=
  (List.find? (fun p => p.1 = k) o).map (fun p => p.2)

/-- jansson `json_object_del`: removes the binding of `k`. -/
def jobj_del (o : JObj) (k : String) : JObj :=
  List.filter (fun p => ¬ p.1 = k) o

/-- jansson `json_object_set_new_nocheck`: replaces the value of an existing
key, or appends a new binding. -/
def jobj_set (o : JObj) (k : String) (v : JVal) : JObj :=
  if (List.find? (fun p => p.1 = k) o).isSome then
    List.map (fun p => if p.1 = k then (k, v) else p) o
  else
    o ++ [(k, v)]

/-- jansson `json_integer_value`: 0 on a missing or non-integer value. -/
def json_integer_value (v : Option JVal) : Int :=
  match v with
  | some (JVal.jint i) => i
  | _ => 0

theorem jobj_get_del (o : JObj) (k : String) : jobj_get (jobj_del o k) k = none := by
  unfold jobj_get jobj_del
  induction o with
  | nil => rfl
  | cons p rest ih =>
    by_cases h : p.1 = k
    · simpa [List.filter_cons, h] using ih
    · simpa [List.filter_cons, h] using ih

theorem find_set (o : JObj) (k : String) (v : JVal) :
    List.find? (fun p => p.1 = k) (jobj_set o k v) = some (k, v) := by
  induction o with
  | nil => simp [jobj_set]
  | cons p rest ih =>
    by_cases h : p.1 = k
    · simp [jobj_set, List.find?_cons, h]
    · simp only [jobj_set] at ih ⊢
      simp only [List.find?_cons, show (decide (p.1 = k)) = false from by simp [h]]
      by_cases hf : (List.find? (fun q => q.1 = k) rest).isSome
      · simp only [hf, if_true] at ih
        simp only [hf, if_true, List.map_cons, if_neg h]
        simpa [List.find?_cons, show (decide (p.1 = k)) = false from by simp [h]] using ih
      · simp only [hf, Bool.false_eq_true, if_false] at ih ⊢
        simpa [List.find?_cons, show (decide (p.1 = k)) = false from by simp [h]] using ih

theorem jobj_get_set_self (o : JObj) (k : String) (v : JVal) :
    jobj_get (jobj_set o k v) k = some v := by
  unfold jobj_get
  rw [find_set]
  rfl

/-- The egress message handler `process_client_msg` (connector.c:709-731):
parses the control-channel JSON, extracts and deletes `client_id`, re-inserts
it narrowed to the low 32 bits only for a passthrough subclient id, and
returns the id to route to together with the object that is serialized (with
a trailing LF) and submitted via `send_client`.  Returns `none` when the JSON
fails to parse (the message is dropped). -/
def process_client_msg (jparse : List Char → Option JObj) (buf : List Char) :
    Option (Int × JObj) :=
  match jparse buf with
  | none => none
  | some json_msg =>
    let client_id := json_integer_value (jobj_get json_msg "client_id")
    let m1 := jobj_del json_msg "client_id"
    let m2 := if 0xffffffff < client_id then
        jobj_set m1 "client_id" (JVal.jint (i64and client_id 0xffffffff))
      else m1
    some (client_id, m2)

/-- C10: on egress, a message whose `client_id` has all high 32 bits zero (a
direct client) has the `client_id` field deleted and not re-inserted, so the
frame written to a direct client never carries a `client_id` field; only
messages addressed to passthrough sub-ids (`id > 0xffffffff`) carry a
`client_id` field in the written frame, narrowed to the low 32 bits. -/
theorem process_client_msg_client_id_field :
    ∀ (jparse : List Char → Option JObj) (buf : List Char) (id : Int) (m : JObj),
      process_client_msg jparse buf = some (id, m) →
      (id ≤ 0xffffffff → jobj_get m "client_id" = none) ∧
      (0xffffffff < id →
        jobj_get m "client_id" = some (JVal.jint (i64and id 0xffffffff))) := by
  intro jparse buf id m h
  unfold process_client_msg at h
  cases hp : jparse buf with
  | none => rw [hp] at h; exact absurd h (by simp)
  | some o =>
    rw [hp] at h
    simp only [Option.some.injEq, Prod.mk.injEq] at h
    obtain ⟨hid, hm⟩ := h
    constructor
    · intro hle
      rw [← hm, if_neg (by omega)]
      exact jobj_get_del o "client_id"
    · intro hgt
      rw [← hm, if_pos (by omega), ← hid]
      exact jobj_get_set_self _ "client_id" _

/-- Witness for C10: a concrete parse function returning an object with a
passthrough sub-id `(10 << 32) | 7` and one returning a direct id 5. -/
theorem process_client_msg_client_id_field_witness :
    (process_client_msg (fun _ => some [("client_id", JVal.jint 42949672967)]) [] =
        some (42949672967, [("client_id", JVal.jint 7)]) ∧
      process_client_msg (fun _ => some [("client_id", JVal.jint 5)]) [] =
        some (5, []) ∧ (5 : Int) ≤ 0xffffffff ∧ (0xffffffff : Int) < 42949672967) ∧
    (jobj_get [("client_id", JVal.jint 7)] "client_id" =
        some (JVal.jint (i64and 42949672967 0xffffffff)) ∧
      jobj_get ([] : JObj) "client_id" = none) :=
  ⟨⟨by decide, by decide, by decide, by decide⟩,
    ⟨(process_client_msg_client_id_field
        (fun _ => some [("client_id", JVal.jint 42949672967)]) [] 42949672967
        [("client_id", JVal.jint 7)] (by decide)).2 (by decide),
     (process_client_msg_client_id_field
        (fun _ => some [("client_id", JVal.jint 5)]) [] 5 [] (by decide)).1
        (by decide)⟩⟩

/-! ## The receive path

`parse_client_msg` (connector.c:351-434) and the receiver read loop.  The
fields of `client_instance_t` touched by the receive path are modelled
explicitly; `buf`/`bufofs` become a `List Char` (the Receiver thread is their
sole writer).  The jansson calls `json_loads`/`json_dumps` are the abstract
parameters `jparse`/`jdump`. -/

/-- The fields of `client_instance_t` that the receive path reads or writes. -/
structure ClientState where
  id : Int
  passthrough : Bool
  address_name : String
  server : Int
  buf : List Char
  invalid : Bool
deriving DecidableEq, Inhabited

/-- The effect of `invalidate_client` on the client record itself: the
tombstone flag is set (via `drop_client`); the table bookkeeping of
`drop_client` is modelled separately on `CData`. -/
def invalidate_client_flag (c : ClientState) : ClientState :=
  { c with invalid := true }

/-- The call `memchr(client->buf, '\n', client->bufofs)` (connector.c:378): index of
the first LF in the buffer. -/
def findLF : List Char → Option Nat
  | [] => none
  | ch :: rest => if ch = '\n' then some 0 else Option.map (· + 1) (findLF rest)

theorem findLF_lt_length : ∀ {l : List Char} {i : Nat}, findLF l = some i → i < l.length := by
  intro l
  induction l with
  | nil => intro i h; exact absurd h (by simp [findLF])
  | cons ch rest ih =>
    intro i h
    unfold findLF at h
    by_cases hch : ch = '\n'
    · rw [if_pos hch] at h
      cases h
      simp
    · rw [if_neg hch] at h
      cases hrec : findLF rest with
      | none => rw [hrec] at h; exact absurd h (by simp)
      | some j =>
        rw [hrec] at h
        have h' : j + 1 = i := by simpa using h
        subst h'
        have hj := ih hrec
        have hlen : (ch :: rest).length = rest.length + 1 := List.length_cons ch rest
        omega

/-- The error line sent to a client on invalid JSON (connector.c:395). -/
def invalidJsonMsg : List Char := String.toList "Invalid JSON, disconnecting\n"

/-- The identity decoration applied to a parsed inbound object
(connector.c:405-414): a passthrough client's embedded `client_id` is
deleted and replaced by `(client->id << 32) | embedded`; otherwise
`client_id` and `address` are set; `server` is always set. -/
def clientAugment (c : ClientState) (val : JObj) : JObj :=
  let val1 :=
    if c.passthrough then
      let pid := json_integer_value (jobj_get val "client_id")
      jobj_set (jobj_del val "client_id") "client_id"
        (JVal.jint (ingress_encode c.id pid))
    else
      jobj_set (jobj_set val "client_id" (JVal.jint c.id)) "address"
        (JVal.jstr c.address_name)
  jobj_set val1 "server" (JVal.jint c.server)

/-- Result of a receive-path step: the updated client record, the frames
forwarded to the consumer (stratifier or generator) in order, and the error
buffers submitted to `send_client`. -/
structure ParseResult where
  client : ClientState
  forwarded : List (List Char)
  sent : List (List Char)
deriving DecidableEq, Inhabited

/-- The `reparse` loop of `parse_client_msg` (connector.c:377-434) followed
by the `retry` re-entry: repeatedly take the first LF-terminated record out
of the buffer, drop the client if the record exceeds MAX_MSGSIZE or fails
JSON parsing (sending the fixed error line first in the latter case),
otherwise forward the decorated record when the client is not invalid.  When
no LF remains, control returns to `retry`, whose overflow check drops a
client holding more than MAX_MSGSIZE LF-free bytes; otherwise the next read
would block and the call returns. -/
def reparseLoop (jparse : List Char → Option JObj) (jdump : JObj → List Char)
    (c : ClientState) : ParseResult :=
  match hfind : findLF c.buf with
  | none =>
    if MAX_MSGSIZE < c.buf.length then ⟨invalidate_client_flag c, [], []⟩
    else ⟨c, [], []⟩
  | some i =>
    if MAX_MSGSIZE < i + 1 then ⟨invalidate_client_flag c, [], []⟩
    else
      let msg := List.take (i + 1) c.buf
      let rest := List.drop (i + 1) c.buf
      match jparse msg with
      | none => ⟨invalidate_client_flag { c with buf := rest }, [], [invalidJsonMsg]⟩
      | some val =>
        let s := jdump (clientAugment c val)
        let r := reparseLoop jparse jdump { c with buf := rest }
        if c.invalid then ⟨r.client, r.forwarded, r.sent⟩
        else ⟨r.client, s :: r.forwarded, r.sent⟩
termination_by c.buf.length
decreasing_by
  have hlt := findLF_lt_length hfind
  have hdrop : (List.drop (i + 1) c.buf).length = c.buf.length - (i + 1) :=
    List.length_drop _ _
  omega

/-- One call of `parse_client_msg` (connector.c:351-434) in which the
non-blocking read returns `chunk` (an empty chunk models EAGAIN /
would-block: state is left untouched).  The `retry` entry drops a client
whose buffer already exceeds MAX_MSGSIZE before reading. -/
def parse_client_msg (jparse : List Char → Option JObj) (jdump : JObj → List Char)
    (c : ClientState) (chunk : List Char) : ParseResult :=
  if MAX_MSGSIZE < c.buf.length then ⟨invalidate_client_flag c, [], []⟩
  else if chunk.isEmpty then ⟨c, [], []⟩
  else reparseLoop jparse jdump { c with buf := c.buf ++ chunk }

/-- The receiver read loop (connector.c:485-546) restricted to one client,
delivering the byte stream `stream`: while bytes remain and the client is
valid, `parse_client_msg` runs with a read of at most
`PAGESIZE - bufofs` bytes (connector.c:365-367); an invalid client is not
parsed again (connector.c:512). -/
def receiverRun (jparse : List Char → Option JObj) (jdump : JObj → List Char)
    (c : ClientState) (stream : List Char) : ParseResult :=
  if hs : stream = [] then ⟨c, [], []⟩
  else if c.invalid then ⟨c, [], []⟩
  else if h2 : MAX_MSGSIZE < c.buf.length then ⟨invalidate_client_flag c, [], []⟩
  else
    let n := PAGESIZE - c.buf.length
    let r := reparseLoop jparse jdump { c with buf := c.buf ++ List.take n stream }
    let r2 := receiverRun jparse jdump r.client (List.drop n stream)
    ⟨r2.client, r.forwarded ++ r2.forwarded, r.sent ++ r2.sent⟩
termination_by stream.length
decreasing_by
  have h0 : 0 < stream.length := List.length_pos.mpr hs
  have h2' : c.buf.length ≤ 1024 := by
    simp only [MAX_MSGSIZE] at h2
    omega
  have hdrop : (List.drop (PAGESIZE - c.buf.length) stream).length =
      stream.length - (PAGESIZE - c.buf.length) := List.length_drop _ _
  simp only [PAGESIZE] at *
  omega

/-- Splits a byte sequence into its LF-terminated records (each including
its LF) and the LF-free remainder. -/
def lineSplit : List Char → List (List Char) × List Char
  | [] => ([], [])
  | ch :: rest =>
    if ch = '\n' then ([ch] :: (lineSplit rest).1, (lineSplit rest).2)
    else
      match lineSplit rest with
      | (r :: rs, rem) => ((ch :: r) :: rs, rem)
      | ([], rem) => ([], ch :: rem)

/-! ### Lemmas about findLF and lineSplit -/

theorem findLF_cons (ch : Char) (rest : List Char) :
    findLF (ch :: rest) = if ch = '\n' then some 0 else Option.map (· + 1) (findLF rest) := rfl

theorem findLF_cons_none {ch : Char} {rest : List Char} (h : findLF (ch :: rest) = none) :
    ¬ ch = '\n' ∧ findLF rest = none := by
  rw [findLF_cons] at h
  by_cases hch : ch = '\n'
  · rw [if_pos hch] at h; exact absurd h (by simp)
  · rw [if_neg hch] at h
    refine ⟨hch, ?_⟩
    cases hr : findLF rest with
    | none => rfl
    | some j => rw [hr] at h; exact absurd h (by simp)

theorem findLF_none_append {a : List Char} (b : List Char) (ha : findLF a = none) :
    findLF (a ++ b) = Option.map (· + a.length) (findLF b) := by
  induction a with
  | nil =>
    simp only [List.nil_append, List.length_nil]
    cases findLF b <;> simp
  | cons ch rest ih =>
    obtain ⟨hch, ha'⟩ := findLF_cons_none ha
    rw [List.cons_append, findLF_cons, if_neg hch, ih ha']
    cases findLF b <;> simp
    omega

theorem findLF_some_append {a : List Char} {i : Nat} (b : List Char)
    (ha : findLF a = some i) : findLF (a ++ b) = some i := by
  induction a generalizing i with
  | nil => exact absurd ha (by simp [findLF])
  | cons ch rest ih =>
    rw [findLF_cons] at ha
    rw [List.cons_append, findLF_cons]
    by_cases hch : ch = '\n'
    · rw [if_pos hch] at ha ⊢
      exact ha
    · rw [if_neg hch] at ha ⊢
      cases hr : findLF rest with
      | none => rw [hr] at ha; exact absurd ha (by simp)
      | some j =>
        rw [hr] at ha
        rw [ih hr]
        simpa using ha

theorem findLF_none_count {l : List Char} (h : findLF l = none) :
    l.count '\n' = 0 := by
  induction l with
  | nil => rfl
  | cons ch rest ih =>
    obtain ⟨hch, h'⟩ := findLF_cons_none h
    rw [List.count_cons, ih h']
    simp
    intro hc
    exact absurd hc hch

theorem findLF_take_count {l : List Char} {i : Nat} (h : findLF l = some i) :
    (List.take (i + 1) l).count '\n' = 1 := by
  induction l generalizing i with
  | nil => exact absurd h (by simp [findLF])
  | cons ch rest ih =>
    rw [findLF_cons] at h
    by_cases hch : ch = '\n'
    · rw [if_pos hch] at h
      cases h
      simp [List.count_cons, hch, findLF_none_count]
    · rw [if_neg hch] at h
      cases hr : findLF rest with
      | none => rw [hr] at h; exact absurd h (by simp)
      | some j =>
        rw [hr] at h
        have h' : j + 1 = i := by simpa using h
        subst h'
        rw [show List.take (j + 1 + 1) (ch :: rest) = ch :: List.take (j + 1) rest from rfl]
        rw [List.count_cons, ih hr]
        simp
        intro hc
        exact absurd hc hch

theorem lineSplit_none : ∀ {l : List Char}, findLF l = none → lineSplit l = ([], l) := by
  intro l
  induction l with
  | nil => intro h; rfl
  | cons ch rest ih =>
    intro h
    obtain ⟨hch, h'⟩ := findLF_cons_none h
    rw [show lineSplit (ch :: rest) =
      (if ch = '\n' then ([ch] :: (lineSplit rest).1, (lineSplit rest).2)
       else
        match lineSplit rest with
        | (r :: rs, rem) => ((ch :: r) :: rs, rem)
        | ([], rem) => ([], ch :: rem)) from rfl]
    rw [if_neg hch, ih h']

theorem lineSplit_some : ∀ {l : List Char} {i : Nat}, findLF l = some i →
    lineSplit l = (List.take (i + 1) l :: (lineSplit (List.drop (i + 1) l)).1,
      (lineSplit (List.drop (i + 1) l)).2) := by
  intro l
  induction l with
  | nil => intro i h; exact absurd h (by simp [findLF])
  | cons ch rest ih =>
    intro i h
    rw [findLF_cons] at h
    rw [show lineSplit (ch :: rest) =
      (if ch = '\n' then ([ch] :: (lineSplit rest).1, (lineSplit rest).2)
       else
        match lineSplit rest with
        | (r :: rs, rem) => ((ch :: r) :: rs, rem)
        | ([], rem) => ([], ch :: rem)) from rfl]
    by_cases hch : ch = '\n'
    · rw [if_pos hch] at *
      have h0 : i = 0 := by simpa using h.symm
      subst h0
      rfl
    · rw [if_neg hch] at *
      cases hr : findLF rest with
      | none => rw [hr] at h; exact absurd h (by simp)
      | some j =>
        rw [hr] at h
        have h' : j + 1 = i := by simpa using h
        subst h'
        rw [ih hr]
        rfl

theorem lineSplit_rem_aux : ∀ (n : Nat) (l : List Char), l.length ≤ n →
    findLF (lineSplit l).2 = none := by
  intro n
  induction n with
  | zero =>
    intro l hl
    have : l = [] := List.eq_nil_of_length_eq_zero (by omega)
    subst this
    rw [lineSplit_none (by rfl)]
    rfl
  | succ n ih =>
    intro l hl
    cases hf : findLF l with
    | none => rw [lineSplit_none hf]; exact hf
    | some i =>
      rw [lineSplit_some hf]
      have hlt := findLF_lt_length hf
      exact ih _ (by
        have := List.length_drop (i + 1) l
        omega)

theorem lineSplit_rem (l : List Char) : findLF (lineSplit l).2 = none :=
  lineSplit_rem_aux l.length l le_rfl

theorem lineSplit_count_aux : ∀ (n : Nat) (l : List Char), l.length ≤ n →
    (lineSplit l).1.length = l.count '\n' := by
  intro n
  induction n with
  | zero =>
    intro l hl
    have : l = [] := List.eq_nil_of_length_eq_zero (by omega)
    subst this
    rw [lineSplit_none (by rfl)]
    rfl
  | succ n ih =>
    intro l hl
    cases hf : findLF l with
    | none =>
      rw [lineSplit_none hf]
      exact (findLF_none_count hf).symm
    | some i =>
      rw [lineSplit_some hf]
      have hlt := findLF_lt_length hf
      have hrec := ih (List.drop (i + 1) l) (by
        have := List.length_drop (i + 1) l
        omega)
      have hsplit : l.count '\n' =
          (List.take (i + 1) l).count '\n' + (List.drop (i + 1) l).count '\n' := by
        conv_lhs => rw [← List.take_append_drop (i + 1) l]
        rw [List.count_append]
      rw [List.length_cons, hrec, hsplit, findLF_take_count hf]
      omega

theorem lineSplit_count (l : List Char) : (lineSplit l).1.length = l.count '\n' :=
  lineSplit_count_aux l.length l le_rfl

theorem lineSplit_append_aux : ∀ (n : Nat) (x : List Char), x.length ≤ n → ∀ (y : List Char),
    lineSplit (x ++ y) =
      ((lineSplit x).1 ++ (lineSplit ((lineSplit x).2 ++ y)).1,
       (lineSplit ((lineSplit x).2 ++ y)).2) := by
  intro n
  induction n with
  | zero =>
    intro x hx y
    have : x = [] := List.eq_nil_of_length_eq_zero (by omega)
    subst this
    rw [List.nil_append, lineSplit_none (show findLF ([] : List Char) = none from rfl)]
    simp
  | succ n ih =>
    intro x hx y
    cases hf : findLF x with
    | none =>
      rw [lineSplit_none hf]
      simp
    | some i =>
      have hlt := findLF_lt_length hf
      have hfxy : findLF (x ++ y) = some i := findLF_some_append y hf
      rw [lineSplit_some hfxy, lineSplit_some hf]
      have htake : List.take (i + 1) (x ++ y) = List.take (i + 1) x :=
        List.take_append_of_le_length (by omega)
      have hdrop : List.drop (i + 1) (x ++ y) = List.drop (i + 1) x ++ y :=
        List.drop_append_of_le_length (by omega)
      have hrec := ih (List.drop (i + 1) x) (by
        have := List.length_drop (i + 1) x
        omega) y
      rw [htake, hdrop, hrec]
      simp

theorem lineSplit_append (x y : List Char) :
    lineSplit (x ++ y) =
      ((lineSplit x).1 ++ (lineSplit ((lineSplit x).2 ++ y)).1,
       (lineSplit ((lineSplit x).2 ++ y)).2) :=
  lineSplit_append_aux x.length x le_rfl y

theorem first_record_longer {a b r : List Char} {rs : List (List Char)}
    (ha : findLF a = none) (h : (lineSplit (a ++ b)).1 = r :: rs) :
    a.length < r.length := by
  cases hfb : findLF b with
  | none =>
    have hab : findLF (a ++ b) = none := by
      rw [findLF_none_append b ha, hfb]
      rfl
    rw [lineSplit_none hab] at h
    exact absurd h (by simp)
  | some j =>
    have hab : findLF (a ++ b) = some (j + a.length) := by
      rw [findLF_none_append b ha, hfb]
      rfl
    rw [lineSplit_some hab] at h
    have hlt := findLF_lt_length hab
    have hr : r = List.take (j + a.length + 1) (a ++ b) := by
      have := h
      simp at this
      exact this.1.symm
    rw [hr, List.length_take]
    omega

/-! ### Branch equations for reparseLoop -/

theorem reparseLoop_buf_none {jp : List Char → Option JObj} {jd : JObj → List Char}
    {c : ClientState} (h : findLF c.buf = none) :
    reparseLoop jp jd c =
      if MAX_MSGSIZE < c.buf.length then ⟨invalidate_client_flag c, [], []⟩
      else ⟨c, [], []⟩ := by
  conv_lhs => rw [reparseLoop]
  split
  · rfl
  · next i heq => rw [h] at heq; exact absurd heq (by simp)

theorem reparseLoop_rec_overflow {jp : List Char → Option JObj} {jd : JObj → List Char}
    {c : ClientState} {i : Nat} (h : findLF c.buf = some i)
    (hov : MAX_MSGSIZE < i + 1) :
    reparseLoop jp jd c = ⟨invalidate_client_flag c, [], []⟩ := by
  conv_lhs => rw [reparseLoop]
  split
  · next heq => rw [h] at heq; exact absurd heq (by simp)
  · next j heq =>
    rw [h] at heq
    cases heq
    rw [if_pos hov]

theorem reparseLoop_badparse {jp : List Char → Option JObj} {jd : JObj → List Char}
    {c : ClientState} {i : Nat} (h : findLF c.buf = some i)
    (hov : ¬ MAX_MSGSIZE < i + 1) (hjp : jp (List.take (i + 1) c.buf) = none) :
    reparseLoop jp jd c =
      ⟨invalidate_client_flag { c with buf := List.drop (i + 1) c.buf }, [],
       [invalidJsonMsg]⟩ := by
  conv_lhs => rw [reparseLoop]
  split
  · next heq => rw [h] at heq; exact absurd heq (by simp)
  · next j heq =>
    rw [h] at heq
    cases heq
    rw [if_neg hov]
    dsimp only
    split
    · next heq2 => rfl
    · next val heq2 => rw [hjp] at heq2; exact absurd heq2 (by simp)

theorem reparseLoop_goodparse {jp : List Char → Option JObj} {jd : JObj → List Char}
    {c : ClientState} {i : Nat} {val : JObj} (h : findLF c.buf = some i)
    (hov : ¬ MAX_MSGSIZE < i + 1) (hjp : jp (List.take (i + 1) c.buf) = some val) :
    reparseLoop jp jd c =
      (if c.invalid then
        ⟨(reparseLoop jp jd { c with buf := List.drop (i + 1) c.buf }).client,
         (reparseLoop jp jd { c with buf := List.drop (i + 1) c.buf }).forwarded,
         (reparseLoop jp jd { c with buf := List.drop (i + 1) c.buf }).sent⟩
      else
        ⟨(reparseLoop jp jd { c with buf := List.drop (i + 1) c.buf }).client,
         jd (clientAugment c val) ::
           (reparseLoop jp jd { c with buf := List.drop (i + 1) c.buf }).forwarded,
         (reparseLoop jp jd { c with buf := List.drop (i + 1) c.buf }).sent⟩) := by
  conv_lhs => rw [reparseLoop]
  split
  · next heq => rw [h] at heq; exact absurd heq (by simp)
  · next j heq =>
    rw [h] at heq
    cases heq
    rw [if_neg hov]
    dsimp only
    split
    · next heq2 => rw [hjp] at heq2; exact absurd heq2 (by simp)
    · next val2 heq2 =>
      rw [hjp] at heq2
      cases heq2
      rfl

/-- Augmentation does not look at the buffer or the tombstone flag. -/
theorem clientAugment_irrel (c : ClientState) (x : List Char) (b : Bool) (v : JObj) :
    clientAugment { c with buf := x, invalid := b } v = clientAugment c v := rfl

/-- Augmentation does not look at the buffer. -/
theorem clientAugment_buf_irrel (c : ClientState) (x : List Char) (v : JObj) :
    clientAugment { c with buf := x } v = clientAugment c v := rfl

/-- The frame forwarded for an inbound record, given the client's identity
fields. -/
def frameFor (jp : List Char → Option JObj) (jd : JObj → List Char)
    (c : ClientState) (r : List Char) : List Char :=
  jd (clientAugment c ((jp r).getD []))

theorem reparseLoop_good_aux : ∀ (n : Nat) (jp : List Char → Option JObj)
    (jd : JObj → List Char) (c : ClientState), c.buf.length ≤ n →
    c.invalid = false →
    (∀ r ∈ (lineSplit c.buf).1, r.length ≤ MAX_MSGSIZE ∧ (jp r).isSome) →
    reparseLoop jp jd c =
      ⟨{ c with
          buf := (lineSplit c.buf).2
          invalid := decide (MAX_MSGSIZE < (lineSplit c.buf).2.length) },
       List.map (frameFor jp jd c) (lineSplit c.buf).1, []⟩ := by
  intro n
  induction n with
  | zero =>
    intro jp jd c hn hInv hrecs
    have hb : c.buf = [] := List.eq_nil_of_length_eq_zero (by omega)
    have hf : findLF c.buf = none := by rw [hb]; rfl
    rw [reparseLoop_buf_none hf, lineSplit_none hf, if_neg (by rw [hb]; simp [MAX_MSGSIZE])]
    rw [show (decide (MAX_MSGSIZE < c.buf.length) = false) from by
      rw [hb]; simp [MAX_MSGSIZE]]
    rw [← hInv]
    rfl
  | succ n ih =>
    intro jp jd c hn hInv hrecs
    cases hf : findLF c.buf with
    | none =>
      rw [reparseLoop_buf_none hf, lineSplit_none hf]
      by_cases hov : MAX_MSGSIZE < c.buf.length
      · rw [if_pos hov, show (decide (MAX_MSGSIZE < c.buf.length) = true) from by
          simp [hov]]
        rfl
      · rw [if_neg hov, show (decide (MAX_MSGSIZE < c.buf.length) = false) from by
          simp [hov]]
        rw [← hInv]
        rfl
    | some i =>
      have hlt := findLF_lt_length hf
      have hmem : List.take (i + 1) c.buf ∈ (lineSplit c.buf).1 := by
        rw [lineSplit_some hf]
        exact List.mem_cons_self _ _
      obtain ⟨hlen, hjp⟩ := hrecs _ hmem
      have hlen' : (List.take (i + 1) c.buf).length = i + 1 :=
        List.length_take_of_le (by omega)
      have hov : ¬ MAX_MSGSIZE < i + 1 := by omega
      obtain ⟨val, hval⟩ := Option.isSome_iff_exists.mp hjp
      have hrec := ih jp jd { c with buf := List.drop (i + 1) c.buf }
        (by
          have := List.length_drop (i + 1) c.buf
          simp only [this]
          omega)
        hInv
        (by
          intro r hr
          apply hrecs
          rw [lineSplit_some hf]
          exact List.mem_cons_of_mem _ hr)
      rw [hInv] at hrec
      rw [reparseLoop_goodparse hf hov hval]
      rw [hInv]
      simp only [Bool.false_eq_true, if_false]
      rw [hrec, lineSplit_some hf]
      simp only [List.map_cons]
      have hframe : ∀ r, frameFor jp jd
          { c with buf := List.drop (i + 1) c.buf, invalid := false } r =
          frameFor jp jd c r := by
        intro r
        unfold frameFor
        rw [clientAugment_irrel]
      have hmap : List.map (frameFor jp jd
            { c with buf := List.drop (i + 1) c.buf, invalid := false })
          (lineSplit (List.drop (i + 1) c.buf)).1 =
          List.map (frameFor jp jd c) (lineSplit (List.drop (i + 1) c.buf)).1 :=
        List.map_congr_left (fun r _ => hframe r)
      rw [hmap]
      have hhead : frameFor jp jd c (List.take (i + 1) c.buf) =
          jd (clientAugment c val) := by
        unfold frameFor
        rw [hval]
        rfl
      rw [← hhead]

theorem reparseLoop_good {jp : List Char → Option JObj} {jd : JObj → List Char}
    {c : ClientState} (hInv : c.invalid = false)
    (hrecs : ∀ r ∈ (lineSplit c.buf).1, r.length ≤ MAX_MSGSIZE ∧ (jp r).isSome) :
    reparseLoop jp jd c =
      ⟨{ c with
          buf := (lineSplit c.buf).2
          invalid := decide (MAX_MSGSIZE < (lineSplit c.buf).2.length) },
       List.map (frameFor jp jd c) (lineSplit c.buf).1, []⟩ :=
  reparseLoop_good_aux c.buf.length jp jd c le_rfl hInv hrecs

theorem reparseLoop_buf_le_aux : ∀ (n : Nat) (jp : List Char → Option JObj)
    (jd : JObj → List Char) (c : ClientState), c.buf.length ≤ n →
    (reparseLoop jp jd c).client.buf.length ≤ c.buf.length := by
  intro n
  induction n with
  | zero =>
    intro jp jd c hn
    have hb : c.buf = [] := List.eq_nil_of_length_eq_zero (by omega)
    have hf : findLF c.buf = none := by rw [hb]; rfl
    rw [reparseLoop_buf_none hf]
    split <;> simp [invalidate_client_flag]
  | succ n ih =>
    intro jp jd c hn
    cases hf : findLF c.buf with
    | none =>
      rw [reparseLoop_buf_none hf]
      split <;> simp [invalidate_client_flag]
    | some i =>
      have hlt := findLF_lt_length hf
      have hdlen : (List.drop (i + 1) c.buf).length = c.buf.length - (i + 1) :=
        List.length_drop _ _
      by_cases hov : MAX_MSGSIZE < i + 1
      · rw [reparseLoop_rec_overflow hf hov]
        simp [invalidate_client_flag]
      · cases hjp : jp (List.take (i + 1) c.buf) with
        | none =>
          rw [reparseLoop_badparse hf hov hjp]
          simp [invalidate_client_flag]
        | some val =>
          rw [reparseLoop_goodparse hf hov hjp]
          have hrec := ih jp jd { c with buf := List.drop (i + 1) c.buf }
            (by simp only [hdlen]; omega)
          by_cases hinv : c.invalid
          · rw [if_pos hinv]
            simp only at hrec ⊢
            omega
          · rw [if_neg hinv]
            simp only at hrec ⊢
            omega

theorem reparseLoop_buf_le (jp : List Char → Option JObj) (jd : JObj → List Char)
    (c : ClientState) : (reparseLoop jp jd c).client.buf.length ≤ c.buf.length :=
  reparseLoop_buf_le_aux c.buf.length jp jd c le_rfl

/-- On the first record that fails JSON parsing (all earlier records being
within bounds and parsing), the loop sends exactly the fixed error line,
invalidates the client, and forwards nothing for the failing record. -/
theorem reparseLoop_badjson : ∀ (pre : List (List Char)) (jp : List Char → Option JObj)
    (jd : JObj → List Char) (c : ClientState) (bad : List Char)
    (post : List (List Char)), c.invalid = false →
    (lineSplit c.buf).1 = pre ++ bad :: post →
    (∀ r ∈ pre, r.length ≤ MAX_MSGSIZE ∧ (jp r).isSome) →
    bad.length ≤ MAX_MSGSIZE → jp bad = none →
    (reparseLoop jp jd c).client.invalid = true ∧
    (reparseLoop jp jd c).forwarded = List.map (frameFor jp jd c) pre ∧
    (reparseLoop jp jd c).sent = [invalidJsonMsg] := by
  intro pre
  induction pre with
  | nil =>
    intro jp jd c bad post hInv hsplit hpre hbadlen hbadjp
    cases hf : findLF c.buf with
    | none =>
      rw [lineSplit_none hf] at hsplit
      exact absurd hsplit (by simp)
    | some i =>
      have hlt := findLF_lt_length hf
      rw [lineSplit_some hf] at hsplit
      simp only [List.nil_append, List.cons.injEq] at hsplit
      obtain ⟨hbad, _⟩ := hsplit
      have hlen : (List.take (i + 1) c.buf).length = i + 1 :=
        List.length_take_of_le (by omega)
      have hov : ¬ MAX_MSGSIZE < i + 1 := by
        rw [← hbad] at hbadlen
        omega
      have hjp : jp (List.take (i + 1) c.buf) = none := by rw [← hbad] at hbadjp; exact hbadjp
      rw [reparseLoop_badparse hf hov hjp]
      exact ⟨rfl, rfl, rfl⟩
  | cons p pre ih =>
    intro jp jd c bad post hInv hsplit hpre hbadlen hbadjp
    cases hf : findLF c.buf with
    | none =>
      rw [lineSplit_none hf] at hsplit
      exact absurd hsplit (by simp)
    | some i =>
      have hlt := findLF_lt_length hf
      rw [lineSplit_some hf] at hsplit
      simp only [List.cons_append, List.cons.injEq] at hsplit
      obtain ⟨hp, htail⟩ := hsplit
      obtain ⟨hplen, hpjp⟩ := hpre p (List.mem_cons_self _ _)
      have hlen : (List.take (i + 1) c.buf).length = i + 1 :=
        List.length_take_of_le (by omega)
      have hov : ¬ MAX_MSGSIZE < i + 1 := by
        rw [← hp] at hplen
        omega
      have hsome : (jp (List.take (i + 1) c.buf)).isSome := by rw [hp]; exact hpjp
      obtain ⟨val, hval⟩ := Option.isSome_iff_exists.mp hsome
      have hrec := ih jp jd { c with buf := List.drop (i + 1) c.buf } bad post
        hInv htail (fun r hr => hpre r (List.mem_cons_of_mem _ hr)) hbadlen hbadjp
      rw [hInv] at hrec
      rw [reparseLoop_goodparse hf hov hval]
      rw [hInv]
      simp only [Bool.false_eq_true, if_false]
      refine ⟨hrec.1, ?_, hrec.2.2⟩
      rw [List.map_cons]
      simp only [hrec.2.1]
      have hframe : ∀ r, frameFor jp jd
          { c with buf := List.drop (i + 1) c.buf, invalid := false } r =
          frameFor jp jd c r := fun r => by
        unfold frameFor
        rw [clientAugment_irrel]
      rw [List.map_congr_left (fun r _ => hframe r)]
      have hhead : frameFor jp jd c p = jd (clientAugment c val) := by
        unfold frameFor
        rw [← hp, hval]
        rfl
      rw [hhead]

/-! ### Branch equations for receiverRun -/

theorem receiverRun_nil {jp : List Char → Option JObj} {jd : JObj → List Char}
    {c : ClientState} : receiverRun jp jd c [] = ⟨c, [], []⟩ := by
  rw [receiverRun]
  rfl

theorem receiverRun_invalid {jp : List Char → Option JObj} {jd : JObj → List Char}
    {c : ClientState} {stream : List Char} (hs : stream ≠ [])
    (hInv : c.invalid = true) : receiverRun jp jd c stream = ⟨c, [], []⟩ := by
  rw [receiverRun, dif_neg hs, if_pos hInv]

theorem receiverRun_entry_overflow {jp : List Char → Option JObj}
    {jd : JObj → List Char} {c : ClientState} {stream : List Char}
    (hs : stream ≠ []) (hInv : ¬ c.invalid = true)
    (hov : MAX_MSGSIZE < c.buf.length) :
    receiverRun jp jd c stream = ⟨invalidate_client_flag c, [], []⟩ := by
  rw [receiverRun, dif_neg hs, if_neg hInv, dif_pos hov]

theorem receiverRun_step {jp : List Char → Option JObj} {jd : JObj → List Char}
    {c : ClientState} {stream : List Char} (hs : stream ≠ [])
    (hInv : ¬ c.invalid = true) (hov : ¬ MAX_MSGSIZE < c.buf.length) :
    receiverRun jp jd c stream =
      ⟨(receiverRun jp jd
          (reparseLoop jp jd
            { c with buf := c.buf ++ List.take (PAGESIZE - c.buf.length) stream }).client
          (List.drop (PAGESIZE - c.buf.length) stream)).client,
       (reparseLoop jp jd
          { c with buf := c.buf ++ List.take (PAGESIZE - c.buf.length) stream }).forwarded ++
        (receiverRun jp jd
          (reparseLoop jp jd
            { c with buf := c.buf ++ List.take (PAGESIZE - c.buf.length) stream }).client
          (List.drop (PAGESIZE - c.buf.length) stream)).forwarded,
       (reparseLoop jp jd
          { c with buf := c.buf ++ List.take (PAGESIZE - c.buf.length) stream }).sent ++
        (receiverRun jp jd
          (reparseLoop jp jd
            { c with buf := c.buf ++ List.take (PAGESIZE - c.buf.length) stream }).client
          (List.drop (PAGESIZE - c.buf.length) stream)).sent⟩ := by
  conv_lhs => rw [receiverRun]
  rw [dif_neg hs, if_neg hInv, dif_neg hov]

/-- The receiver forwards exactly the decorated LF-terminated records of the
delivered byte stream, in order, as long as every record is within bounds and
parses. -/
theorem receiverRun_good_aux : ∀ (fuel : Nat) (jp : List Char → Option JObj)
    (jd : JObj → List Char) (c : ClientState) (stream : List Char),
    stream.length ≤ fuel →
    c.invalid = false → findLF c.buf = none → c.buf.length ≤ PAGESIZE →
    (∀ r ∈ (lineSplit (c.buf ++ stream)).1, r.length ≤ MAX_MSGSIZE ∧ (jp r).isSome) →
    (receiverRun jp jd c stream).forwarded =
      List.map (frameFor jp jd c) (lineSplit (c.buf ++ stream)).1 := by
  intro fuel
  induction fuel with
  | zero =>
    intro jp jd c stream hfuel hInv hfb hble hrecs
    have hs : stream = [] := List.eq_nil_of_length_eq_zero (by omega)
    subst hs
    rw [receiverRun_nil, List.append_nil, lineSplit_none hfb]
    rfl
  | succ fuel ih =>
    intro jp jd c stream hfuel hInv hfb hble hrecs
    by_cases hs : stream = []
    · subst hs
      rw [receiverRun_nil, List.append_nil, lineSplit_none hfb]
      rfl
    · by_cases hov : MAX_MSGSIZE < c.buf.length
      · rw [receiverRun_entry_overflow hs (by rw [hInv]; simp) hov]
        cases hsplit : (lineSplit (c.buf ++ stream)).1 with
        | nil => rfl
        | cons r rs =>
          have hlong := first_record_longer hfb hsplit
          have hr := hrecs r (by rw [hsplit]; exact List.mem_cons_self _ _)
          omega
      · rw [receiverRun_step hs (by rw [hInv]; simp) hov]
        have hn1 : 1 ≤ PAGESIZE - c.buf.length := by
          simp only [MAX_MSGSIZE] at hov
          simp only [PAGESIZE]
          omega
        have hdecomp : c.buf ++ stream =
            (c.buf ++ List.take (PAGESIZE - c.buf.length) stream) ++
              List.drop (PAGESIZE - c.buf.length) stream := by
          rw [List.append_assoc, List.take_append_drop]
        have hsplitall := lineSplit_append
          (c.buf ++ List.take (PAGESIZE - c.buf.length) stream)
          (List.drop (PAGESIZE - c.buf.length) stream)
        set b := c.buf ++ List.take (PAGESIZE - c.buf.length) stream with hb
        set rest := List.drop (PAGESIZE - c.buf.length) stream with hrest
        have hrecsb : ∀ r ∈ (lineSplit b).1, r.length ≤ MAX_MSGSIZE ∧ (jp r).isSome := by
          intro r hr
          apply hrecs
          rw [hdecomp, hsplitall]
          exact List.mem_append_left _ hr
        have hgood := @reparseLoop_good jp jd { c with buf := b } hInv hrecsb
        rw [hgood]
        set remb := (lineSplit b).2 with hremb
        have hremb_nolf : findLF remb = none := lineSplit_rem b
        have hrecs2 : ∀ r ∈ (lineSplit (remb ++ rest)).1,
            r.length ≤ MAX_MSGSIZE ∧ (jp r).isSome := by
          intro r hr
          apply hrecs
          rw [hdecomp, hsplitall]
          exact List.mem_append_right _ hr
        have hfuel2 : rest.length ≤ fuel := by
          have hlen := List.length_drop (PAGESIZE - c.buf.length) stream
          have hpos : 0 < stream.length := List.length_pos.mpr hs
          rw [hrest, hlen]
          omega
        by_cases hrem : MAX_MSGSIZE < remb.length
        · -- the LF-free remainder is oversized: the next entry drops the
          -- client; no further record can exist
          have hreq : (lineSplit (remb ++ rest)).1 = [] := by
            cases hsplit2 : (lineSplit (remb ++ rest)).1 with
            | nil => rfl
            | cons r rs =>
              have hlong := first_record_longer hremb_nolf hsplit2
              have hr := hrecs2 r (by rw [hsplit2]; exact List.mem_cons_self _ _)
              omega
          have hforward2 : (receiverRun jp jd
              { c with buf := remb, invalid := decide (MAX_MSGSIZE < remb.length) }
              rest).forwarded = [] := by
            by_cases hrest0 : rest = []
            · rw [hrest0, receiverRun_nil]
            · rw [receiverRun_invalid hrest0 (by simp [hrem])]
          rw [hforward2, hdecomp, hsplitall]
          simp only [List.map_append, hreq, List.map_nil, List.append_nil]
          rfl
        · -- remainder fits: recurse
          have hforward2 := ih jp jd
            { c with buf := remb, invalid := decide (MAX_MSGSIZE < remb.length) }
            rest hfuel2 (by simp [hrem]) hremb_nolf
            (by
              simp only []
              have h1 : remb.length ≤ MAX_MSGSIZE := by omega
              simp only [MAX_MSGSIZE] at h1
              simp only [PAGESIZE]
              omega)
            (by
              intro r hr
              exact hrecs2 r hr)
          rw [hforward2, hdecomp, hsplitall]
          simp only [List.map_append]
          congr 1

theorem receiverRun_good {jp : List Char → Option JObj} {jd : JObj → List Char}
    {c : ClientState} {stream : List Char}
    (hInv : c.invalid = false) (hfb : findLF c.buf = none)
    (hble : c.buf.length ≤ PAGESIZE)
    (hrecs : ∀ r ∈ (lineSplit (c.buf ++ stream)).1,
      r.length ≤ MAX_MSGSIZE ∧ (jp r).isSome) :
    (receiverRun jp jd c stream).forwarded =
      List.map (frameFor jp jd c) (lineSplit (c.buf ++ stream)).1 :=
  receiverRun_good_aux stream.length jp jd c stream le_rfl hInv hfb hble hrecs

theorem receiverRun_buf_le_aux : ∀ (fuel : Nat) (jp : List Char → Option JObj)
    (jd : JObj → List Char) (c : ClientState) (stream : List Char),
    stream.length ≤ fuel → c.buf.length ≤ PAGESIZE →
    (receiverRun jp jd c stream).client.buf.length ≤ PAGESIZE := by
  intro fuel
  induction fuel with
  | zero =>
    intro jp jd c stream hfuel hble
    have hs : stream = [] := List.eq_nil_of_length_eq_zero (by omega)
    subst hs
    rw [receiverRun_nil]
    exact hble
  | succ fuel ih =>
    intro jp jd c stream hfuel hble
    by_cases hs : stream = []
    · subst hs
      rw [receiverRun_nil]
      exact hble
    · by_cases hinv : c.invalid = true
      · rw [receiverRun_invalid hs hinv]
        exact hble
      · by_cases hov : MAX_MSGSIZE < c.buf.length
        · rw [receiverRun_entry_overflow hs hinv hov]
          exact hble
        · rw [receiverRun_step hs hinv hov]
          have hblen : (c.buf ++ List.take (PAGESIZE - c.buf.length) stream).length ≤
              PAGESIZE := by
            rw [List.length_append, List.length_take]
            omega
          have hr1 := reparseLoop_buf_le jp jd
            { c with buf := c.buf ++ List.take (PAGESIZE - c.buf.length) stream }
          simp only at hr1
          have hfuel2 : (List.drop (PAGESIZE - c.buf.length) stream).length ≤ fuel := by
            have hlen := List.length_drop (PAGESIZE - c.buf.length) stream
            have hpos : 0 < stream.length := List.length_pos.mpr hs
            have hn1 : 1 ≤ PAGESIZE - c.buf.length := by
              simp only [MAX_MSGSIZE] at hov
              simp only [PAGESIZE]
              omega
            omega
          exact ih jp jd _ _ hfuel2 (by omega)

/-- C2: for every sequence of inbound bytes delivered to a client's receive
buffer containing exactly k LF characters, with every LF-terminated record
within MAX_MSGSIZE and parsing as valid JSON, and the client not invalid,
the receive path forwards exactly k frames to the consumer, the i-th frame
being the i-th LF-terminated record augmented with the identity fields, in
arrival byte order. -/
theorem receiver_forwards_k_frames :
    ∀ (jp : List Char → Option JObj) (jd : JObj → List Char) (c : ClientState)
      (stream : List Char) (k : Nat),
      c.invalid = false → c.buf = [] → stream.count '\n' = k →
      (∀ r ∈ (lineSplit stream).1, r.length ≤ MAX_MSGSIZE ∧ (jp r).isSome) →
      (receiverRun jp jd c stream).forwarded =
        List.map (frameFor jp jd c) (lineSplit stream).1 ∧
      (receiverRun jp jd c stream).forwarded.length = k := by
  intro jp jd c stream k hInv hbuf hk hrecs
  have hfb : findLF c.buf = none := by rw [hbuf]; rfl
  have hble : c.buf.length ≤ PAGESIZE := by rw [hbuf]; simp [PAGESIZE]
  have hrecs' : ∀ r ∈ (lineSplit (c.buf ++ stream)).1,
      r.length ≤ MAX_MSGSIZE ∧ (jp r).isSome := by
    rw [hbuf, List.nil_append]
    exact hrecs
  have hgood := @receiverRun_good jp jd c stream hInv hfb hble hrecs'
  rw [hbuf, List.nil_append] at hgood
  refine ⟨hgood, ?_⟩
  rw [hgood, List.length_map, lineSplit_count, hk]

/-- Witness for C2: two one-byte records, a trivial JSON model, k = 2. -/
theorem receiver_forwards_k_frames_witness :
    ((⟨1, false, "", 0, [], false⟩ : ClientState).invalid = false ∧
      (⟨1, false, "", 0, [], false⟩ : ClientState).buf = [] ∧
      (String.toList "a\nb\n").count '\n' = 2 ∧
      (∀ r ∈ (lineSplit (String.toList "a\nb\n")).1,
        r.length ≤ MAX_MSGSIZE ∧ ((fun _ => some ([] : JObj)) r).isSome)) ∧
    ((receiverRun (fun _ => some ([] : JObj)) (fun _ => String.toList "f")
        ⟨1, false, "", 0, [], false⟩ (String.toList "a\nb\n")).forwarded =
      List.map (frameFor (fun _ => some ([] : JObj)) (fun _ => String.toList "f")
        ⟨1, false, "", 0, [], false⟩) (lineSplit (String.toList "a\nb\n")).1 ∧
      (receiverRun (fun _ => some ([] : JObj)) (fun _ => String.toList "f")
        ⟨1, false, "", 0, [], false⟩ (String.toList "a\nb\n")).forwarded.length = 2) :=
  ⟨⟨rfl, rfl, by decide, by decide⟩,
    receiver_forwards_k_frames (fun _ => some ([] : JObj))
      (fun _ => String.toList "f") ⟨1, false, "", 0, [], false⟩
      (String.toList "a\nb\n") 2 rfl rfl (by decide) (by decide)⟩

/-- C3: `parse_client_msg` drops the client in exactly the two size-overflow
cases: (1) at the read entry, when the buffer already holds more than
MAX_MSGSIZE LF-free bytes, and (2) after locating an LF, when the record
length `eol - buf + 1` exceeds MAX_MSGSIZE — in both cases forwarding nothing
for the offending bytes; when neither case occurs (and records parse), the
client is not invalidated; and `bufofs` never exceeds PAGESIZE. -/
theorem parse_overflow_drops :
    (∀ (jp : List Char → Option JObj) (jd : JObj → List Char) (c : ClientState)
      (chunk : List Char), c.invalid = false → findLF c.buf = none →
      MAX_MSGSIZE < c.buf.length →
      parse_client_msg jp jd c chunk = ⟨invalidate_client_flag c, [], []⟩) ∧
    (∀ (jp : List Char → Option JObj) (jd : JObj → List Char) (c : ClientState)
      (chunk : List Char) (i : Nat), c.invalid = false → chunk ≠ [] →
      ¬ MAX_MSGSIZE < c.buf.length →
      findLF (c.buf ++ chunk) = some i → MAX_MSGSIZE < i + 1 →
      parse_client_msg jp jd c chunk =
        ⟨invalidate_client_flag { c with buf := c.buf ++ chunk }, [], []⟩) ∧
    (∀ (jp : List Char → Option JObj) (jd : JObj → List Char) (c : ClientState)
      (chunk : List Char), c.invalid = false → ¬ MAX_MSGSIZE < c.buf.length →
      (∀ r ∈ (lineSplit (c.buf ++ chunk)).1, r.length ≤ MAX_MSGSIZE ∧ (jp r).isSome) →
      (lineSplit (c.buf ++ chunk)).2.length ≤ MAX_MSGSIZE →
      (parse_client_msg jp jd c chunk).client.invalid = false) ∧
    (∀ (jp : List Char → Option JObj) (jd : JObj → List Char) (c : ClientState)
      (stream : List Char), c.buf.length ≤ PAGESIZE →
      (receiverRun jp jd c stream).client.buf.length ≤ PAGESIZE) := by
  refine ⟨?_, ?_, ?_, ?_⟩
  · intro jp jd c chunk hInv hfb hov
    unfold parse_client_msg
    rw [if_pos hov]
  · intro jp jd c chunk i hInv hchunk hov hf hrec
    unfold parse_client_msg
    rw [if_neg hov, if_neg (by simpa [List.isEmpty_iff] using hchunk)]
    exact reparseLoop_rec_overflow hf hrec
  · intro jp jd c chunk hInv hov hrecs hrem
    unfold parse_client_msg
    rw [if_neg hov]
    by_cases hempty : chunk.isEmpty
    · rw [if_pos hempty]
      exact hInv
    · rw [if_neg hempty]
      have hgood := @reparseLoop_good jp jd { c with buf := c.buf ++ chunk } hInv hrecs
      rw [hgood]
      simp only [decide_eq_true_eq]
      simpa using hrem
  · intro jp jd c stream hble
    exact receiverRun_buf_le_aux stream.length jp jd c stream le_rfl hble

theorem findLF_replicate_a (n : Nat) : findLF (List.replicate n 'a') = none := by
  induction n with
  | zero => rfl
  | succ n ih =>
    rw [List.replicate_succ, findLF_cons, if_neg (by decide), ih]
    rfl

theorem findLF_replicate_a_lf (n : Nat) :
    findLF (List.replicate n 'a' ++ ['\n']) = some n := by
  induction n with
  | zero => rfl
  | succ n ih =>
    rw [List.replicate_succ, List.cons_append, findLF_cons, if_neg (by decide), ih]
    rfl

/-- Witness for C3: an LF-free 1025-byte buffer is dropped at entry; a
1025-byte record is dropped after its LF is found; a well-formed record does
not invalidate; the buffer bound holds on a concrete run. -/
theorem parse_overflow_drops_witness :
    ((⟨1, false, "", 0, List.replicate 1025 'a', false⟩ : ClientState).invalid = false ∧
      findLF (List.replicate 1025 'a') = none ∧
      MAX_MSGSIZE < (List.replicate 1025 'a').length ∧
      findLF (([] : List Char) ++ (List.replicate 1024 'a' ++ ['\n'])) = some 1024 ∧
      MAX_MSGSIZE < 1024 + 1) ∧
    (parse_client_msg (fun _ => some ([] : JObj)) (fun _ => [])
        ⟨1, false, "", 0, List.replicate 1025 'a', false⟩ [] =
      ⟨invalidate_client_flag ⟨1, false, "", 0, List.replicate 1025 'a', false⟩, [], []⟩ ∧
      parse_client_msg (fun _ => some ([] : JObj)) (fun _ => [])
        ⟨1, false, "", 0, [], false⟩ (List.replicate 1024 'a' ++ ['\n']) =
      ⟨invalidate_client_flag ⟨1, false, "", 0,
        ([] : List Char) ++ (List.replicate 1024 'a' ++ ['\n']), false⟩, [], []⟩ ∧
      (parse_client_msg (fun _ => some ([] : JObj)) (fun _ => [])
        ⟨1, false, "", 0, [], false⟩ (String.toList "a\n")).client.invalid = false ∧
      (receiverRun (fun _ => some ([] : JObj)) (fun _ => [])
        ⟨1, false, "", 0, [], false⟩
        (String.toList "a\n")).client.buf.length ≤ PAGESIZE) :=
  ⟨⟨rfl, findLF_replicate_a 1025,
      by rw [List.length_replicate]; decide,
      by rw [List.nil_append]; exact findLF_replicate_a_lf 1024, by decide⟩,
    ⟨parse_overflow_drops.1 (fun _ => some ([] : JObj)) (fun _ => [])
        ⟨1, false, "", 0, List.replicate 1025 'a', false⟩ [] rfl
        (findLF_replicate_a 1025)
        (by rw [List.length_replicate]; decide),
     parse_overflow_drops.2.1 (fun _ => some ([] : JObj)) (fun _ => [])
        ⟨1, false, "", 0, [], false⟩ (List.replicate 1024 'a' ++ ['\n']) 1024 rfl
        (List.length_pos.mp
          (by rw [List.length_append, List.length_replicate]; decide))
        (by decide)
        (by rw [List.nil_append]; exact findLF_replicate_a_lf 1024)
        (by decide),
     parse_overflow_drops.2.2.1 (fun _ => some ([] : JObj)) (fun _ => [])
        ⟨1, false, "", 0, [], false⟩ (String.toList "a\n") rfl (by decide)
        (by decide) (by decide),
     parse_overflow_drops.2.2.2 (fun _ => some ([] : JObj)) (fun _ => [])
        ⟨1, false, "", 0, [], false⟩ (String.toList "a\n") (by decide)⟩⟩

/-- C9: for every inbound LF-terminated record that fails JSON parsing (all
earlier records in the buffer being well-formed), `parse_client_msg` submits
exactly the text "Invalid JSON, disconnecting\n" as an outbound frame for
that client, then invalidates the client, and forwards nothing to the
consumer for that record. -/
theorem invalid_json_drops :
    ∀ (jp : List Char → Option JObj) (jd : JObj → List Char) (c : ClientState)
      (chunk : List Char) (pre : List (List Char)) (bad : List Char)
      (post : List (List Char)),
      c.invalid = false → chunk ≠ [] → ¬ MAX_MSGSIZE < c.buf.length →
      (lineSplit (c.buf ++ chunk)).1 = pre ++ bad :: post →
      (∀ r ∈ pre, r.length ≤ MAX_MSGSIZE ∧ (jp r).isSome) →
      bad.length ≤ MAX_MSGSIZE → jp bad = none →
      (parse_client_msg jp jd c chunk).sent = [invalidJsonMsg] ∧
      (parse_client_msg jp jd c chunk).client.invalid = true ∧
      (parse_client_msg jp jd c chunk).forwarded =
        List.map (frameFor jp jd c) pre := by
  intro jp jd c chunk pre bad post hInv hchunk hov hsplit hpre hbadlen hbadjp
  unfold parse_client_msg
  rw [if_neg hov, if_neg (by simpa [List.isEmpty_iff] using hchunk)]
  have hbad := reparseLoop_badjson pre jp jd { c with buf := c.buf ++ chunk } bad post
    hInv hsplit hpre hbadlen hbadjp
  exact ⟨hbad.2.2, hbad.1, hbad.2.1⟩

/-- Witness for C9: a single record that fails to parse. -/
theorem invalid_json_drops_witness :
    ((⟨1, false, "", 0, [], false⟩ : ClientState).invalid = false ∧
      (lineSplit (([] : List Char) ++ String.toList "x\n")).1 =
        [] ++ String.toList "x\n" :: [] ∧
      (String.toList "x\n").length ≤ MAX_MSGSIZE) ∧
    ((parse_client_msg (fun _ => (none : Option JObj)) (fun _ => [])
        ⟨1, false, "", 0, [], false⟩ (String.toList "x\n")).sent = [invalidJsonMsg] ∧
      (parse_client_msg (fun _ => (none : Option JObj)) (fun _ => [])
        ⟨1, false, "", 0, [], false⟩ (String.toList "x\n")).client.invalid = true ∧
      (parse_client_msg (fun _ => (none : Option JObj)) (fun _ => [])
        ⟨1, false, "", 0, [], false⟩ (String.toList "x\n")).forwarded =
        List.map (frameFor (fun _ => (none : Option JObj)) (fun _ => [])
          ⟨1, false, "", 0, [], false⟩) []) :=
  ⟨⟨rfl, by decide, by decide⟩,
    invalid_json_drops (fun _ => (none : Option JObj)) (fun _ => [])
      ⟨1, false, "", 0, [], false⟩ (String.toList "x\n") [] (String.toList "x\n") []
      rfl (by decide) (by decide) (by decide) (by decide) (by decide) rfl⟩

/-! ## Client table

The reference-counted client table of connector.c.  Records live in a heap
(pointer = index, never freed); the live hash, the dead list and the
recycled list hold pointers.  All the operations below run inside one
`ck_wlock` critical section in the source, so each is a single atomic step
of the model. -/

/-- The fields of `client_instance_t` that the table operations touch. -/
structure CRecord where
  id : Int
  fd : Int
  ref : Int
  invalid : Bool
deriving DecidableEq, Inhabited

/-- A freshly `ckzalloc`ed (all-zero) client record. -/
def zeroRecord : CRecord := ⟨0, 0, 0, false⟩

/-- The table state inside `connector_data`. -/
structure CData where
  heap : List CRecord
  clients : List Nat
  dead_clients : List Nat
  recycled_clients : List Nat
  clients_generated : Int
  dead_generated : Int
deriving DecidableEq, Inhabited

/-- Dereference a record pointer. -/
def hget (d : CData) (p : Nat) : CRecord := d.heap.getD p default

/-- Store through a record pointer. -/
def hset (d : CData) (p : Nat) (r : CRecord) : CData :=
  { d with heap := d.heap.set p r }

/-- Function `drop_client` (connector.c:259-283): under the write lock, if the record
is not yet invalid: set `invalid`, snapshot the fd, deregister the fd from
epoll (an external effect), remove the record from the live hash, append it
to the dead list, drop the epoll reference, bump `dead_generated`; return the
snapshot fd, or -1 if the record was already invalid. -/
def drop_client (d : CData) (p : Nat) : CData × Int :=
  let r := hget d p
  if r.invalid then (d, -1)
  else
    let d1 := hset d p { r with invalid := true, ref := r.ref - 1 }
    ({ d1 with
        clients := d1.clients.erase p
        dead_clients := d1.dead_clients ++ [p]
        dead_generated := d1.dead_generated + 1 }, r.fd)

/-- Function `ref_client_by_id` (connector.c:436-451): under the write lock, look the
id up in the live hash; if found and not invalid, increment `ref` and return
the record, otherwise return nothing. -/
def ref_client_by_id (d : CData) (cid : Int) : CData × Option Nat :=
  match List.find? (fun p => (hget d p).id == cid) d.clients with
  | none => (d, none)
  | some p =>
    let r := hget d p
    if r.invalid then (d, none)
    else (hset d p { r with ref := r.ref + 1 }, some p)

/-- Function `recruit_client` (connector.c:138-156): take the head of the recycled
list if there is one, else `ckzalloc` a fresh record and bump
`clients_generated`.  Returns the new state and the record pointer. -/
def recruit_client (d : CData) : CData × Nat :=
  match d.recycled_clients with
  | p :: rest => ({ d with recycled_clients := rest }, p)
  | [] =>
    ({ d with
        clients_generated := d.clients_generated + 1
        heap := d.heap ++ [zeroRecord] }, d.heap.length)

/-- Function `__recycle_client` (connector.c:158-163): `memset` the record to zero,
set its id to -1, and append it to the recycled list. -/
def recycle_client (d : CData) (p : Nat) : CData :=
  let d1 := hset d p { zeroRecord with id := -1 }
  { d1 with recycled_clients := d1.recycled_clients ++ [p] }

/-! ### List getD/set lemmas -/

theorem getD_set_self : ∀ (l : List CRecord) (p : Nat) (r dflt : CRecord),
    p < l.length → (l.set p r).getD p dflt = r := by
  intro l
  induction l with
  | nil => intro p r dflt h; simp at h
  | cons a rest ih =>
    intro p r dflt h
    cases p with
    | zero => rfl
    | succ p =>
      simp only [List.set, List.getD, List.getElem?_cons_succ]
      have := ih p r dflt (by simp at h; omega)
      simpa [List.getD] using this

theorem getD_set_ne : ∀ (l : List CRecord) (p q : Nat) (r dflt : CRecord),
    p ≠ q → (l.set p r).getD q dflt = l.getD q dflt := by
  intro l
  induction l with
  | nil => intro p q r dflt h; simp [List.set]
  | cons a rest ih =>
    intro p q r dflt h
    cases p with
    | zero =>
      cases q with
      | zero => exact absurd rfl h
      | succ q => rfl
    | succ p =>
      cases q with
      | zero => rfl
      | succ q =>
        simp only [List.set, List.getD, List.getElem?_cons_succ]
        have := ih p q r dflt (by omega)
        simpa [List.getD] using this

theorem getD_append_self : ∀ (l : List CRecord) (r dflt : CRecord),
    (l ++ [r]).getD l.length dflt = r := by
  intro l
  induction l with
  | nil => intro r dflt; rfl
  | cons a rest ih =>
    intro r dflt
    simpa [List.getD] using ih r dflt

/-- C4: for every client record, if it is not invalid, `drop_client` (in one
critical section) sets its `invalid` flag, removes it from the live hash,
appends it to the dead list, decrements its `ref` once (the poller
registration reference), and returns its fd; if it is already invalid,
`drop_client` changes no state and returns -1. -/
theorem drop_client_spec :
    ∀ (d : CData) (p : Nat), p < d.heap.length →
      ((hget d p).invalid = false →
        (drop_client d p).2 = (hget d p).fd ∧
        (hget (drop_client d p).1 p).invalid = true ∧
        (hget (drop_client d p).1 p).ref = (hget d p).ref - 1 ∧
        (hget (drop_client d p).1 p).id = (hget d p).id ∧
        (drop_client d p).1.clients = d.clients.erase p ∧
        (d.clients.Nodup → p ∉ (drop_client d p).1.clients) ∧
        (drop_client d p).1.dead_clients = d.dead_clients ++ [p]) ∧
      ((hget d p).invalid = true → drop_client d p = (d, -1)) := by
  intro d p hp
  constructor
  · intro hInv
    have hres : drop_client d p =
        ({ heap := d.heap.set p
              { hget d p with invalid := true, ref := (hget d p).ref - 1 }
           clients := d.clients.erase p
           dead_clients := d.dead_clients ++ [p]
           recycled_clients := d.recycled_clients
           clients_generated := d.clients_generated
           dead_generated := d.dead_generated + 1 }, (hget d p).fd) := by
      unfold drop_client
      rw [if_neg (by rw [hInv]; simp)]
      rfl
    have hg : hget (drop_client d p).1 p =
        { hget d p with invalid := true, ref := (hget d p).ref - 1 } := by
      rw [hres]
      exact getD_set_self d.heap p _ _ hp
    refine ⟨by rw [hres], by rw [hg], by rw [hg], by rw [hg], by rw [hres], ?_,
      by rw [hres]⟩
    intro hnd hmem
    rw [hres] at hmem
    have hme := (List.Nodup.mem_erase_iff hnd).mp hmem
    exact hme.1 rfl
  · intro hInv
    unfold drop_client
    rw [if_pos (by rw [hInv])]

/-- Witness for C4 on a two-record table. -/
theorem drop_client_spec_witness :
    ((0 : Nat) < (⟨[⟨5, 9, 2, false⟩, ⟨6, 10, 1, true⟩], [0], [1], [], 1, 0⟩ :
        CData).heap.length ∧
      (hget ⟨[⟨5, 9, 2, false⟩, ⟨6, 10, 1, true⟩], [0], [1], [], 1, 0⟩ 0).invalid =
        false) ∧
    ((drop_client ⟨[⟨5, 9, 2, false⟩, ⟨6, 10, 1, true⟩], [0], [1], [], 1, 0⟩ 0).2 =
        (hget ⟨[⟨5, 9, 2, false⟩, ⟨6, 10, 1, true⟩], [0], [1], [], 1, 0⟩ 0).fd ∧
      (hget (drop_client ⟨[⟨5, 9, 2, false⟩, ⟨6, 10, 1, true⟩], [0], [1], [], 1, 0⟩
          0).1 0).invalid = true) :=
  ⟨⟨by decide, by decide⟩,
    ⟨((drop_client_spec ⟨[⟨5, 9, 2, false⟩, ⟨6, 10, 1, true⟩], [0], [1], [], 1, 0⟩ 0
        (by decide)).1 (by decide)).1,
     ((drop_client_spec ⟨[⟨5, 9, 2, false⟩, ⟨6, 10, 1, true⟩], [0], [1], [], 1, 0⟩ 0
        (by decide)).1 (by decide)).2.1⟩⟩

/-- C5: after `drop_client` invalidates a record, looking its id up with
`ref_client_by_id` returns nothing even while its `ref` is still positive;
and whenever `ref_client_by_id` returns a record, that record's id equals the
queried id, its `invalid` flag is false, and its `ref` count has been
incremented by exactly one. -/
theorem ref_lookup_spec :
    (∀ (d : CData) (p : Nat), p < d.heap.length → d.clients.Nodup →
      (hget d p).invalid = false → 0 < (hget d p).ref →
      (∀ q ∈ d.clients, (hget d q).id = (hget d p).id → q = p) →
      (ref_client_by_id (drop_client d p).1 (hget d p).id).2 = none) ∧
    (∀ (d : CData) (cid : Int) (d' : CData) (p : Nat),
      (∀ q ∈ d.clients, q < d.heap.length) →
      ref_client_by_id d cid = (d', some p) →
      (hget d p).id = cid ∧ (hget d p).invalid = false ∧
      (hget d' p).ref = (hget d p).ref + 1) := by
  constructor
  · intro d p hp hnd hInv href huniq
    have hclients : (drop_client d p).1.clients = d.clients.erase p := by
      unfold drop_client
      rw [if_neg (by rw [hInv]; simp)]
      rfl
    have hheap : ∀ q, q ≠ p → hget (drop_client d p).1 q = hget d q := by
      intro q hq
      unfold drop_client
      rw [if_neg (by rw [hInv]; simp)]
      exact getD_set_ne d.heap p q _ _ (fun hc => hq hc.symm)
    unfold ref_client_by_id
    rw [hclients]
    rw [List.find?_eq_none.mpr]
    intro q hqmem
    have hq := (List.Nodup.mem_erase_iff hnd).mp hqmem
    rw [hheap q (by intro hc; exact hq.1 hc)]
    have hne : (hget d q).id ≠ (hget d p).id := by
      intro heq
      exact hq.1 (huniq q hq.2 heq)
    simpa using hne
  · intro d cid d' p hwf href
    unfold ref_client_by_id at href
    cases hfind : List.find? (fun p => (hget d p).id == cid) d.clients with
    | none =>
      rw [hfind] at href
      exact absurd (congrArg Prod.snd href) (by simp)
    | some q =>
      rw [hfind] at href
      dsimp only at href
      have hqid := List.find?_some hfind
      have hqmem : q ∈ d.clients := List.mem_of_find?_eq_some hfind
      simp only [beq_iff_eq] at hqid
      by_cases hqinv : (hget d q).invalid
      · rw [if_pos hqinv] at href
        exact absurd (congrArg Prod.snd href) (by simp)
      · rw [if_neg hqinv] at href
        have hpq : q = p := by
          have := congrArg Prod.snd href
          simpa using this
        subst hpq
        have hd' : d' = hset d q { hget d q with ref := (hget d q).ref + 1 } :=
          (congrArg Prod.fst href).symm
        refine ⟨hqid, by simpa using hqinv, ?_⟩
        rw [hd']
        have := getD_set_self d.heap q { hget d q with ref := (hget d q).ref + 1 }
          default (hwf q hqmem)
        rw [show hget (hset d q { hget d q with ref := (hget d q).ref + 1 }) q =
          (d.heap.set q { hget d q with ref := (hget d q).ref + 1 }).getD q default
          from rfl, this]

/-- Witness for C5: drop then look up on a concrete table; a successful
lookup increments ref. -/
theorem ref_lookup_spec_witness :
    (((0 : Nat) < (⟨[⟨5, 9, 2, false⟩], [0], [], [], 1, 0⟩ : CData).heap.length ∧
       ([0] : List Nat).Nodup ∧
       (hget ⟨[⟨5, 9, 2, false⟩], [0], [], [], 1, 0⟩ 0).invalid = false ∧
       0 < (hget ⟨[⟨5, 9, 2, false⟩], [0], [], [], 1, 0⟩ 0).ref) ∧
      ref_client_by_id ⟨[⟨5, 9, 2, false⟩], [0], [], [], 1, 0⟩ 5 =
        (⟨[⟨5, 9, 3, false⟩], [0], [], [], 1, 0⟩, some 0)) ∧
    ((ref_client_by_id
        (drop_client ⟨[⟨5, 9, 2, false⟩], [0], [], [], 1, 0⟩ 0).1
        (hget ⟨[⟨5, 9, 2, false⟩], [0], [], [], 1, 0⟩ 0).id).2 = none ∧
      (hget ⟨[⟨5, 9, 2, false⟩], [0], [], [], 1, 0⟩ 0).id = 5 ∧
      (hget ⟨[⟨5, 9, 3, false⟩], [0], [], [], 1, 0⟩ 0).ref =
        (hget ⟨[⟨5, 9, 2, false⟩], [0], [], [], 1, 0⟩ 0).ref + 1) :=
  ⟨⟨⟨by decide, by decide, by decide, by decide⟩, by decide⟩,
    ⟨ref_lookup_spec.1 ⟨[⟨5, 9, 2, false⟩], [0], [], [], 1, 0⟩ 0 (by decide)
        (by decide) (by decide) (by decide) (by decide),
     (ref_lookup_spec.2 ⟨[⟨5, 9, 2, false⟩], [0], [], [], 1, 0⟩ 5
        ⟨[⟨5, 9, 3, false⟩], [0], [], [], 1, 0⟩ 0 (by decide) (by decide)).1,
     (ref_lookup_spec.2 ⟨[⟨5, 9, 2, false⟩], [0], [], [], 1, 0⟩ 5
        ⟨[⟨5, 9, 3, false⟩], [0], [], [], 1, 0⟩ 0 (by decide) (by decide)).2.2⟩⟩

/-- Counterexample to C6 as stated: a record recruited off the recycled list
is not zeroed — recycling sets its id to -1, and `recruit_client` hands it
out without re-zeroing, so the recruited record differs from a zeroed one. -/
theorem recruit_recycled_not_zeroed :
    (recruit_client (recycle_client ⟨[⟨5, 9, 0, true⟩], [], [0], [], 1, 1⟩ 0)).2 = 0 ∧
    hget (recruit_client (recycle_client ⟨[⟨5, 9, 0, true⟩], [], [0], [], 1, 1⟩ 0)).1
      (recruit_client (recycle_client ⟨[⟨5, 9, 0, true⟩], [], [0], [], 1, 1⟩ 0)).2 =
      { zeroRecord with id := -1 } ∧
    { zeroRecord with id := (-1 : Int) } ≠ zeroRecord := by
  refine ⟨by decide, by decide, by decide⟩

/-- C6 (amended): `recruit_client` returns the head of the recycled list
when one exists — a record that recycling zeroed and then stamped with
id = -1 — without touching `clients_generated`; otherwise it allocates a
fresh all-zero record and increments `clients_generated`; `__recycle_client`
zeroes a record, sets its id to -1 and appends it to the recycled list. -/
theorem recruit_client_spec :
    (∀ (d : CData) (p : Nat) (rest : List Nat), d.recycled_clients = p :: rest →
      recruit_client d = ({ d with recycled_clients := rest }, p) ∧
      (recruit_client d).1.clients_generated = d.clients_generated) ∧
    (∀ d : CData, d.recycled_clients = [] →
      (recruit_client d).2 = d.heap.length ∧
      hget (recruit_client d).1 (recruit_client d).2 = zeroRecord ∧
      (recruit_client d).1.clients_generated = d.clients_generated + 1) ∧
    (∀ (d : CData) (p : Nat), p < d.heap.length →
      hget (recycle_client d p) p = { zeroRecord with id := -1 } ∧
      (recycle_client d p).recycled_clients = d.recycled_clients ++ [p]) := by
  refine ⟨?_, ?_, ?_⟩
  · intro d p rest hrec
    unfold recruit_client
    rw [hrec]
    exact ⟨rfl, rfl⟩
  · intro d hrec
    unfold recruit_client
    rw [hrec]
    refine ⟨rfl, ?_, rfl⟩
    exact getD_append_self d.heap zeroRecord default
  · intro d p hp
    unfold recycle_client
    exact ⟨getD_set_self d.heap p _ _ hp, rfl⟩

/-- Witness for C6 (amended) on concrete tables. -/
theorem recruit_client_spec_witness :
    ((⟨[⟨-1, 0, 0, false⟩], [], [], [0], 1, 1⟩ : CData).recycled_clients = 0 :: [] ∧
      (⟨[], [], [], [], 0, 0⟩ : CData).recycled_clients = [] ∧
      (0 : Nat) < (⟨[⟨5, 9, 0, true⟩], [], [], [], 1, 1⟩ : CData).heap.length) ∧
    (recruit_client ⟨[⟨-1, 0, 0, false⟩], [], [], [0], 1, 1⟩ =
        ({ (⟨[⟨-1, 0, 0, false⟩], [], [], [0], 1, 1⟩ : CData) with
            recycled_clients := [] }, 0) ∧
      hget (recruit_client ⟨[], [], [], [], 0, 0⟩).1
        (recruit_client (⟨[], [], [], [], 0, 0⟩ : CData)).2 = zeroRecord ∧
      (recruit_client (⟨[], [], [], [], 0, 0⟩ : CData)).1.clients_generated = 0 + 1 ∧
      hget (recycle_client ⟨[⟨5, 9, 0, true⟩], [], [], [], 1, 1⟩ 0) 0 =
        { zeroRecord with id := -1 }) :=
  ⟨⟨rfl, rfl, by decide⟩,
    ⟨(recruit_client_spec.1 ⟨[⟨-1, 0, 0, false⟩], [], [], [0], 1, 1⟩ 0 [] rfl).1,
     (recruit_client_spec.2.1 ⟨[], [], [], [], 0, 0⟩ rfl).2.1,
     (recruit_client_spec.2.1 ⟨[], [], [], [], 0, 0⟩ rfl).2.2,
     (recruit_client_spec.2.2 ⟨[⟨5, 9, 0, true⟩], [], [], [], 1, 1⟩ 0 (by decide)).1⟩⟩

/-! ## Sender

`send_sender_send` (connector.c:555-576), the sender thread's working-list
walk (connector.c:596-628) and submission via `send_client`
(connector.c:687-696).  The outcomes of the non-blocking `write` calls are
an explicit oracle: `ok n` is a return of `n ≥ 0` bytes, `ewouldblock` is
-1 with EAGAIN/EWOULDBLOCK, `err` any other failure. -/

/-- Outcome of one non-blocking `write` call. -/
inductive WriteRes where
  | ok (n : Nat)
  | ewouldblock
  | err
deriving DecidableEq, Inhabited

/-- A pending send (`sender_send_t`): the owned buffer, remaining length and
written offset. -/
structure SenderSend where
  buf : List Char
  len : Nat
  ofs : Nat
deriving DecidableEq, Inhabited

/-- The bytes transferred by a `write(fd, buf + ofs, len)` that returns n. -/
def writtenSlice (s : SenderSend) (n : Nat) : List Char :=
  List.take n (List.drop s.ofs s.buf)

/-- The `while (sender_send->len)` loop of `send_sender_send`
(connector.c:562-574), consuming write outcomes from the oracle.  Returns
(done, updated send, client-invalidated, bytes written to the socket). -/
def send_loop (s : SenderSend) (ws : List WriteRes) :
    Bool × SenderSend × Bool × List Char :=
  if s.len = 0 then (true, s, false, [])
  else
    match ws with
    | [] => (false, s, false, [])
    | WriteRes.ok 0 :: _ => (false, s, false, [])
    | WriteRes.ok (n + 1) :: rest =>
      let r := send_loop { s with ofs := s.ofs + (n + 1), len := s.len - (n + 1) } rest
      (r.1, r.2.1, r.2.2.1, writtenSlice s (n + 1) ++ r.2.2.2)
    | WriteRes.ewouldblock :: _ => (false, s, false, [])
    | WriteRes.err :: _ => (true, s, true, [])

/-- Function `send_sender_send` (connector.c:555-576): an invalid target reports done
without any I/O; otherwise the write loop runs. -/
def send_sender_send (clientInvalid : Bool) (s : SenderSend) (ws : List WriteRes) :
    Bool × SenderSend × Bool × List Char :=
  if clientInvalid then (true, s, false, [])
  else send_loop s ws

/-- C7: `send_sender_send` returns done without performing any write when the
target client is invalid; each successful write of n bytes advances `ofs` by
n and decrements `len` by n; it returns done exactly when `len` reaches zero;
on a write returning EAGAIN/EWOULDBLOCK/0 it returns not-done with `ofs` and
`len` unchanged since the last successful write; on any other error it
invalidates the client and returns done. -/
theorem send_sender_send_spec :
    (∀ (s : SenderSend) (ws : List WriteRes),
      send_sender_send true s ws = (true, s, false, [])) ∧
    (∀ (s : SenderSend) (ws : List WriteRes), s.len = 0 →
      send_sender_send false s ws = (true, s, false, [])) ∧
    (∀ (s : SenderSend) (n : Nat) (rest : List WriteRes), s.len ≠ 0 →
      send_sender_send false s (WriteRes.ok (n + 1) :: rest) =
        ((send_loop { s with ofs := s.ofs + (n + 1), len := s.len - (n + 1) } rest).1,
         (send_loop { s with ofs := s.ofs + (n + 1), len := s.len - (n + 1) } rest).2.1,
         (send_loop { s with ofs := s.ofs + (n + 1), len := s.len - (n + 1) } rest).2.2.1,
         writtenSlice s (n + 1) ++
           (send_loop { s with ofs := s.ofs + (n + 1), len := s.len - (n + 1) }
             rest).2.2.2)) ∧
    (∀ (s : SenderSend) (rest : List WriteRes), s.len ≠ 0 →
      send_sender_send false s (WriteRes.ewouldblock :: rest) = (false, s, false, []) ∧
      send_sender_send false s (WriteRes.ok 0 :: rest) = (false, s, false, [])) ∧
    (∀ (s : SenderSend) (rest : List WriteRes), s.len ≠ 0 →
      send_sender_send false s (WriteRes.err :: rest) = (true, s, true, [])) ∧
    (∀ (s : SenderSend) (ws : List WriteRes),
      (send_sender_send false s ws).2.2.1 = false →
      (send_sender_send false s ws).1 = true →
      (send_sender_send false s ws).2.1.len = 0) := by
  refine ⟨?_, ?_, ?_, ?_, ?_, ?_⟩
  · intro s ws
    rfl
  · intro s ws h
    unfold send_sender_send send_loop
    rw [if_neg (by simp), if_pos h]
  · intro s n rest h
    unfold send_sender_send
    rw [if_neg (by simp)]
    conv_lhs => rw [send_loop]
    rw [if_neg h]
  · intro s rest h
    constructor
    · unfold send_sender_send
      rw [if_neg (by simp)]
      conv_lhs => rw [send_loop]
      rw [if_neg h]
    · unfold send_sender_send
      rw [if_neg (by simp)]
      conv_lhs => rw [send_loop]
      rw [if_neg h]
  · intro s rest h
    unfold send_sender_send
    rw [if_neg (by simp)]
    conv_lhs => rw [send_loop]
    rw [if_neg h]
  · intro s ws
    unfold send_sender_send
    rw [if_neg (by simp)]
    induction ws generalizing s with
    | nil =>
      intro hinv hdone
      by_cases h : s.len = 0
      · rw [send_loop.eq_def, if_pos h]
        exact h
      · rw [send_loop.eq_def, if_neg h] at hdone
        exact absurd hdone (by simp)
    | cons w rest ih =>
      intro hinv hdone
      by_cases h : s.len = 0
      · rw [send_loop.eq_def, if_pos h]
        exact h
      · rw [send_loop.eq_def, if_neg h] at hinv hdone ⊢
        cases w with
        | ok n =>
          cases n with
          | zero => exact absurd hdone (by simp)
          | succ n =>
            dsimp only at hinv hdone ⊢
            exact ih _ hinv hdone
        | ewouldblock => exact absurd hdone (by simp)
        | err => exact absurd hinv (by simp)

/-- Witness for C7 on a concrete pending send. -/
theorem send_sender_send_spec_witness :
    ((⟨String.toList "abcd", 4, 0⟩ : SenderSend).len = 0 ∨ True) ∧
    (send_sender_send true ⟨String.toList "abcd", 4, 0⟩ [] =
        (true, ⟨String.toList "abcd", 4, 0⟩, false, []) ∧
      send_sender_send false ⟨String.toList "abcd", 0, 4⟩ [] =
        (true, ⟨String.toList "abcd", 0, 4⟩, false, []) ∧
      send_sender_send false ⟨String.toList "abcd", 4, 0⟩ [WriteRes.err] =
        (true, ⟨String.toList "abcd", 4, 0⟩, true, []) ∧
      send_sender_send false ⟨String.toList "abcd", 4, 0⟩ [WriteRes.ewouldblock] =
        (false, ⟨String.toList "abcd", 4, 0⟩, false, [])) :=
  ⟨Or.inr trivial,
    ⟨send_sender_send_spec.1 ⟨String.toList "abcd", 4, 0⟩ [],
     send_sender_send_spec.2.1 ⟨String.toList "abcd", 0, 4⟩ [] rfl,
     send_sender_send_spec.2.2.2.2.1 ⟨String.toList "abcd", 4, 0⟩ [] (by decide),
     (send_sender_send_spec.2.2.2.1 ⟨String.toList "abcd", 4, 0⟩ [] (by decide)).1⟩⟩

/-- The two sender lists: the working list `sends` (thread-local to the
sender) and the submission list `sender_sends` (guarded by `sender_lock`). -/
structure SenderState where
  sends : List SenderSend
  sender_sends : List SenderSend
deriving DecidableEq, Inhabited

/-- The tail of `send_client` (connector.c:687-696): wrap the buffer in a
zeroed `sender_send_t` (`len = strlen(buf)`, `ofs = 0`) and append it to
`sender_sends` under the sender lock. -/
def send_client_queue (st : SenderState) (buf : List Char) : SenderState :=
  { st with sender_sends := st.sender_sends ++ [⟨buf, buf.length, 0⟩] }

/-- One walk of the working list (connector.c:601-609): attempt each pending
send in list order with its oracle of write outcomes; finished ones are
unlinked, unfinished ones stay.  Returns the surviving list and the bytes
written, in walk order. -/
def senderWalk : List SenderSend → List (List WriteRes) →
    List SenderSend × List Char
  | [], _ => ([], [])
  | s :: ss, ows =>
    let ws := ows.headD []
    let res := send_sender_send false s ws
    let rest := senderWalk ss ows.tail
    if res.1 then (rest.1, res.2.2.2 ++ rest.2)
    else (res.2.1 :: rest.1, res.2.2.2 ++ rest.2)

/-- One sender iteration (connector.c:596-628): walk the working list, then
splice the submission list onto its end. -/
def senderTick (st : SenderState) (ows : List (List WriteRes)) :
    SenderState × List Char :=
  let w := senderWalk st.sends ows
  ({ sends := w.1 ++ st.sender_sends, sender_sends := [] }, w.2)

/-- A run of the sender in which every issued write fully succeeds: each
tick first queues that tick's submissions via `send_client`, then performs
one iteration in which every pending send's single write returns its full
remaining length. -/
def senderRunAllOk : SenderState → List (List (List Char)) → List Char
  | _, [] => []
  | st, subs :: ticks =>
    let st1 := List.foldl send_client_queue st subs
    let t := senderTick st1 (List.map (fun s => [WriteRes.ok s.len]) st1.sends)
    t.2 ++ senderRunAllOk t.1 ticks

/-- The bytes a pending send still has to deliver. -/
def bytesOf (s : SenderSend) : List Char := List.take s.len (List.drop s.ofs s.buf)

theorem send_loop_all_ok (s : SenderSend) :
    send_loop s [WriteRes.ok s.len] =
      (true, { s with ofs := s.ofs + s.len, len := 0 }, false, bytesOf s) := by
  cases hn : s.len with
  | zero =>
    rw [send_loop, if_pos hn]
    unfold bytesOf
    rw [hn]
    cases s with
    | mk buf len ofs =>
      simp only at hn
      subst hn
      rfl
  | succ n =>
    rw [send_loop, if_neg (by omega), hn]
    dsimp only
    rw [send_loop, if_pos (by simp)]
    unfold bytesOf writtenSlice
    rw [hn]
    simp

theorem senderWalk_all_ok : ∀ ss : List SenderSend,
    senderWalk ss (List.map (fun s => [WriteRes.ok s.len]) ss) =
      ([], (ss.map bytesOf).flatten) := by
  intro ss
  induction ss with
  | nil => rfl
  | cons s rest ih =>
    rw [List.map_cons, senderWalk]
    have hsend : send_sender_send false s
        (([WriteRes.ok s.len] :: List.map (fun s => [WriteRes.ok s.len]) rest).headD []) =
        (true, { s with ofs := s.ofs + s.len, len := 0 }, false, bytesOf s) := by
      rw [show (([WriteRes.ok s.len] :: List.map (fun s => [WriteRes.ok s.len])
        rest).headD []) = [WriteRes.ok s.len] from rfl]
      unfold send_sender_send
      rw [if_neg (by simp)]
      exact send_loop_all_ok s
    rw [show (([WriteRes.ok s.len] :: List.map (fun s => [WriteRes.ok s.len])
      rest).tail) = List.map (fun s => [WriteRes.ok s.len]) rest from rfl, hsend, ih]
    rfl

theorem foldl_send_client_queue : ∀ (subs : List (List Char)) (st : SenderState),
    List.foldl send_client_queue st subs =
      { st with sender_sends :=
          st.sender_sends ++ subs.map (fun b => ⟨b, b.length, 0⟩) } := by
  intro subs
  induction subs with
  | nil =>
    intro st
    simp [List.foldl]
  | cons b rest ih =>
    intro st
    rw [List.foldl_cons, ih]
    unfold send_client_queue
    simp

theorem senderRunAllOk_general : ∀ (ticks : List (List (List Char))) (st : SenderState),
    senderRunAllOk st (ticks ++ [[], []]) =
      (st.sends.map bytesOf).flatten ++ (st.sender_sends.map bytesOf).flatten ++
        (ticks.flatten.map (fun b : List Char => b)).flatten := by
  intro ticks
  induction ticks with
  | nil =>
    intro st
    rw [show (([] : List (List (List Char))) ++ [[], []]) = [[], []] from rfl]
    rw [senderRunAllOk]
    rw [show List.foldl send_client_queue st [] = st from rfl]
    unfold senderTick
    rw [senderWalk_all_ok]
    dsimp only
    rw [senderRunAllOk]
    rw [show List.foldl send_client_queue
      (⟨[] ++ st.sender_sends, []⟩ : SenderState) [] =
      ⟨[] ++ st.sender_sends, []⟩ from rfl]
    unfold senderTick
    dsimp only
    rw [List.nil_append, senderWalk_all_ok]
    dsimp only
    rw [senderRunAllOk]
    simp
  | cons subs ticks ih =>
    intro st
    rw [List.cons_append, senderRunAllOk, foldl_send_client_queue]
    unfold senderTick
    dsimp only
    rw [senderWalk_all_ok]
    dsimp only
    rw [ih ⟨[] ++ (st.sender_sends ++
      List.map (fun b => (⟨b, b.length, 0⟩ : SenderSend)) subs), []⟩]
    dsimp only
    have hmk : ∀ b : List Char, bytesOf (⟨b, b.length, 0⟩ : SenderSend) = b := by
      intro b
      unfold bytesOf
      simp
    simp only [List.nil_append, List.map_append, List.map_map, List.flatten_append,
      List.map_nil, List.flatten_nil, List.append_nil, List.flatten_cons]
    have hmaps : List.map (bytesOf ∘ fun b : List Char =>
        (⟨b, b.length, 0⟩ : SenderSend)) subs = List.map (fun b => b) subs :=
      List.map_congr_left (fun b _ => hmk b)
    rw [hmaps]
    simp [List.append_assoc]

/-- C8: for every sequence of outbound buffers submitted for a client via
`send_client`, partitioned arbitrarily into sender ticks, if every write
issued by the sender succeeds in full, the byte stream written to the
client's socket is exactly the concatenation of the submitted buffers in
submission order. -/
theorem sender_writes_in_order :
    ∀ ticks : List (List (List Char)),
      senderRunAllOk ⟨[], []⟩ (ticks ++ [[], []]) = ticks.flatten.flatten := by
  intro ticks
  rw [senderRunAllOk_general]
  simp

end Connector
